import Mathlib

/-!
# DEEP composition polynomial builder: a verification development

This file embeds the DEEP (Domain Extension for Eliminating Pretenders)
composition polynomial builder of the winterfell prover
(`src/prover/src/monolith/composer/mod.rs`) into Lean 4.

Polynomials are coefficient vectors (`List R`, index = power of x) over a
commutative ring `R`; the extension-field conjugate is an explicit function
parameter `conj : R -> R`.  Fallible phases (the Rust `assert!` calls, which
abort the process) are modelled with `Option`: a `none` result models a
panic.  The `usize` subtraction inside `assert_eq!(self.poly_size() - 2,
self.degree())` is modelled by the equivalent addition-form equation
`poly_size = degree + 2`, which agrees with the Rust semantics both in debug
builds (where the subtraction underflows and panics when `poly_size < 2`)
and in release builds (where the wrapped value can never equal a degree).

Helpers of the repository that live outside the provided source directory
(the `math` crate's `polynom`, `utils` and `fft` modules, and the
`TracePolyTable` / `CompositionPoly` / `StarkDomain` containers) are
modelled from the specification; each such definition carries a doc
comment starting with `Modelled from the spec:`.
-/

-- ================================================================
-- Polynomial primitives (math crate, modelled from the spec)
-- ================================================================

/-- Modelled from the spec: polynomial evaluation at a point
(`polynom::eval`), Horner evaluation of a coefficient vector. -/
def polyEval {R : Type} [CommRing R] (p : List R) (x : R) : R :=
  p.foldr (fun c acc => c + x * acc) 0

/-- Modelled from the spec: index of the highest nonzero coefficient of a
coefficient vector, or `none` when all coefficients are zero.  Helper for
`degree_of`. -/
def last_nonzero {R : Type} [CommRing R] [DecidableEq R] : List R → Option Nat
  | [] => none
  | c :: t =>
    match last_nonzero t with
    | some i => some (i + 1)
    | none => if c = 0 then none else some 0

/-- Modelled from the spec: degree computation (`polynom::degree_of`), the
index of the highest nonzero coefficient (0 for the zero polynomial). -/
def degree_of {R : Type} [CommRing R] [DecidableEq R] (p : List R) : Nat :=
  (last_nonzero p).getD 0

/-- Modelled from the spec: coefficient-wise accumulate-with-scalar
(`utils::mul_acc`): `acc[i] += b[i] * k` over the common prefix; the tail of
the accumulator beyond the end of `b` is unchanged. -/
def mul_acc {R : Type} [CommRing R] : List R → List R → R → List R
  | [], _, _ => []
  | acc, [], _ => acc
  | a :: as_, b :: bs, k => (a + b * k) :: mul_acc as_ bs k

/-- Modelled from the spec: coefficient-wise add (`utils::add_in_place`):
`acc[i] += b[i]` over the common prefix; the tail of the accumulator beyond
the end of `b` is unchanged. -/
def add_in_place {R : Type} [CommRing R] : List R → List R → List R
  | [], _ => []
  | acc, [] => acc
  | a :: as_, b :: bs => (a + b) :: add_in_place as_ bs

/-- Multiplication of every coefficient by a scalar; `mul_acc` into a zero
vector computes exactly this. -/
def scale {R : Type} [CommRing R] (p : List R) (k : R) : List R :=
  p.map (fun c => c * k)

/-- Subtraction of a constant from the coefficient at index 0 (the Rust
`poly[0] -= v`).  On the empty vector the Rust indexing would panic; that
case is unreachable in every use below because the vectors have positive
length there. -/
def sub_const {R : Type} [CommRing R] : List R → R → List R
  | [], _ => []
  | c :: t, v => (c - v) :: t

/-- Modelled from the spec: exact synthetic division of a coefficient
vector by the linear factor `(x - b)` (`polynom::syn_div_in_place` with
`a = 1`).  Returns the pair (remainder, quotient); the quotient keeps the
length of the input, its top position becoming zero.  The in-place Rust
routine discards the remainder. -/
def syn_div_aux {R : Type} [CommRing R] (b : R) (p : List R) : R × List R :=
  p.foldr (fun coeff acc => (coeff + b * acc.1, acc.1 :: acc.2)) (0, [])

/-- The quotient part of the synthetic division by `(x - b)`; this is the
vector left in place by `polynom::syn_div_in_place`. -/
def syn_div {R : Type} [CommRing R] (b : R) (p : List R) : List R :=
  (syn_div_aux b p).2

-- ================================================================
-- Data model
-- ================================================================

/-- Composition coefficients drawn from the public coin: a triple per trace
register, one coefficient per constraint column, and a final pair for the
degree adjustment.  The per-index families are total functions, matching
that the bundle is sized by the caller. -/
structure CompositionCoefficients (R : Type) where
  trace : Nat → R × R × R
  constraints : Nat → R
  degree : R × R

/-- The out-of-domain evaluation frame returned by the trace composition:
per-register trace states at `z` and at `next_z`. -/
structure EvaluationFrame (R : Type) where
  current : List R
  next : List R

/-- The DEEP composition polynomial under construction: an accumulating
coefficient vector, the immutable coefficient bundle, the out-of-domain
challenge `z`, and the field-extension flag. -/
structure DeepCompositionPoly (R : Type) where
  coefficients : List R
  cc : CompositionCoefficients R
  z : R
  field_extension : Bool

/-- Modelled from the spec: the trace polynomial table holds one
polynomial per register, each of length equal to the trace length;
`poly_size` returns that common length. -/
def table_poly_size {R : Type} (t : List (List R)) : Nat :=
  (t.headD []).length

/-- Modelled from the spec: evaluation of the whole trace polynomial table
at one point, one value per register (`TracePolyTable::evaluate_at`). -/
def evaluate_at {R : Type} [CommRing R] (t : List (List R)) (x : R) : List R :=
  t.map (fun p => polyEval p x)

-- ================================================================
-- Helper functions of the composer source file
-- ================================================================

/-- Computes `(P(x) - value) * k` and saves the result into the
accumulator (`acc_poly` in the source): accumulate `P * k`, then subtract
`value * k` from the constant term. -/
def acc_poly {R : Type} [CommRing R] (accumulator : List R) (poly : List R)
    (value : R) (k : R) : List R :=
  let acc := mul_acc accumulator poly k
  sub_const acc (value * k)

/-- Division step of the serial `merge_trace_compositions`: each polynomial
is divided in place by its divisor, empty polynomials are skipped, and
polynomials beyond the end of the divisor list are untouched (the Rust
`zip` stops at the shorter list). -/
def div_each {R : Type} [CommRing R] : List (List R) → List R → List (List R)
  | [], _ => []
  | ps, [] => ps
  | p :: ps, d :: ds => (if p.isEmpty then p else syn_div d p) :: div_each ps ds

/-- Division step of the concurrent `merge_trace_compositions`
(`par_iter_mut().zip(...).for_each`): every zipped element is updated
independently; rayon's deterministic data-parallel update of disjoint
elements is the map over the zipped prefix, the rest untouched. -/
def div_each_concurrent {R : Type} [CommRing R] (ps : List (List R)) (ds : List R) :
    List (List R) :=
  ((ps.zip ds).map fun pd => if pd.1.isEmpty then pd.1 else syn_div pd.2 pd.1) ++
    ps.drop ds.length

/-- Divides each polynomial in the list by the corresponding divisor and
computes the coefficient-wise sum of the results, skipping empty
polynomials (serial `merge_trace_compositions`).  The Rust
`polys.remove(0)` panics on an empty vector; every call site passes a
three-element vector, so the `[]` branch is unreachable. -/
def merge_trace_compositions {R : Type} [CommRing R] (polys : List (List R))
    (divisors : List R) : List R :=
  match div_each polys divisors with
  | [] => []
  | first :: rest =>
    rest.foldl (fun acc p => if p.isEmpty then acc else add_in_place acc p) first

/-- Concurrent variant of `merge_trace_compositions` (the
`feature = "concurrent"` body): parallel division, then the same serial
summation loop. -/
def merge_trace_compositions_concurrent {R : Type} [CommRing R]
    (polys : List (List R)) (divisors : List R) : List R :=
  match div_each_concurrent polys divisors with
  | [] => []
  | first :: rest =>
    rest.foldl (fun acc p => if p.isEmpty then acc else add_in_place acc p) first

-- ================================================================
-- Phase 1: trace polynomial composition
-- ================================================================

/-- The register loop of `add_trace_polys`: folds every register
polynomial (paired with its trace states at `z` and `next_z`) into the
three composition buffers with `acc_poly`, using the per-register
coefficient triple `ct i`; the third buffer is only touched when the
field-extension flag `fe` is set. -/
def trace_loop {R : Type} [CommRing R] (conj : R → R) (ct : Nat → R × R × R)
    (fe : Bool) :
    Nat → List (List R × R × R) → List R × List R × List R → List R × List R × List R
  | _, [], bufs => bufs
  | i, (poly, v1, v2) :: rest, (t1, t2, t3) =>
    trace_loop conj ct fe (i + 1) rest
      (acc_poly t1 poly v1 (ct i).1,
       acc_poly t2 poly v2 (ct i).2.1,
       if fe then acc_poly t3 poly (conj v1) (ct i).2.2 else t3)

/-- The three composition buffers built by `add_trace_polys`: zero vectors
of the trace length (the third empty when the field extension is off),
folded over all registers with their out-of-domain states. -/
def trace_buffers {R : Type} [CommRing R] (conj : R → R)
    (cc : CompositionCoefficients R) (fe : Bool) (z g : R)
    (polys : List (List R)) : List R × List R × List R :=
  let trace_length := table_poly_size polys
  let next_z := z * g
  let s1 := evaluate_at polys z
  let s2 := evaluate_at polys next_z
  trace_loop conj cc.trace fe 0 (polys.zip (s1.zip s2))
    (List.replicate trace_length 0, List.replicate trace_length 0,
     if fe then List.replicate trace_length 0 else [])

/-- The merged trace composition vector of `add_trace_polys`: the three
buffers divided by `(x - z)`, `(x - z * g)` and `(x - conj z)` respectively
and summed. -/
def trace_merge {R : Type} [CommRing R] (conj : R → R)
    (cc : CompositionCoefficients R) (fe : Bool) (z g : R)
    (polys : List (List R)) : List R :=
  let bufs := trace_buffers conj cc fe z g polys
  merge_trace_compositions [bufs.1, bufs.2.1, bufs.2.2] [z, z * g, conj z]

/-- Phase 1 (`add_trace_polys`): requires an empty Composer (`assert!` on a
non-empty coefficient vector, modelled as `none`); computes `next_z = z * g`
with `g` the root of unity of order trace length supplied by the base
field's root-of-unity table (an external input, here a parameter), builds
and merges the three composition buffers, stores the result, checks the
degree assertion, and returns the out-of-domain evaluation frame. -/
def add_trace_polys {R : Type} [CommRing R] [DecidableEq R] (conj : R → R)
    (g : R) (self : DeepCompositionPoly R) (trace_polys : List (List R)) :
    Option (EvaluationFrame R × DeepCompositionPoly R) :=
  if self.coefficients.isEmpty then
    let next_z := self.z * g
    let trace_state1 := evaluate_at trace_polys self.z
    let trace_state2 := evaluate_at trace_polys next_z
    let trace_poly :=
      trace_merge conj self.cc self.field_extension self.z g trace_polys
    if trace_poly.length = degree_of trace_poly + 2 then
      some (⟨trace_state1, trace_state2⟩, { self with coefficients := trace_poly })
    else none
  else none

-- ================================================================
-- Phase 2: constraint polynomial composition
-- ================================================================

/-- Serial per-column division loop of `add_composition_poly`: for every
column, evaluate at `z_m`, subtract the value from the constant term,
divide by `(x - z_m)` in place; returns the collected values and the
mutated columns. -/
def divide_columns {R : Type} [CommRing R] (z_m : R) :
    List (List R) → List R × List (List R)
  | [] => ([], [])
  | p :: ps =>
    let value_at_z_m := polyEval p z_m
    let p' := syn_div z_m (sub_const p value_at_z_m)
    let rest := divide_columns z_m ps
    (value_at_z_m :: rest.1, p' :: rest.2)

/-- Concurrent per-column division loop of `add_composition_poly`
(`par_iter_mut`): every column is processed independently, values and
mutated columns collected in column order. -/
def divide_columns_concurrent {R : Type} [CommRing R] (z_m : R)
    (ps : List (List R)) : List R × List (List R) :=
  (ps.map (fun p => polyEval p z_m),
   ps.map (fun p => syn_div z_m (sub_const p (polyEval p z_m))))

/-- Accumulation loop of `add_composition_poly`: folds every divided
column into the coefficient vector with `mul_acc` and the per-column
coefficient `ccC i`. -/
def constraint_loop {R : Type} [CommRing R] (ccC : Nat → R) :
    Nat → List R → List (List R) → List R
  | _, acc, [] => acc
  | i, acc, p :: ps => constraint_loop ccC (i + 1) (mul_acc acc p (ccC i)) ps

/-- Phase 2 (`add_composition_poly`): requires a non-empty Composer
(`assert!`, modelled as `none`); computes `z_m = z ^ m` with `m` the number
of columns, divides out `z_m` from every column, folds the scaled quotients
into the coefficient vector, checks the degree assertion, and returns the
per-column evaluations at `z_m`. -/
def add_composition_poly {R : Type} [CommRing R] [DecidableEq R]
    (self : DeepCompositionPoly R) (composition_poly : List (List R)) :
    Option (List R × DeepCompositionPoly R) :=
  if self.coefficients.isEmpty then none
  else
    let num_columns := composition_poly.length
    let z_m := self.z ^ num_columns
    let divided := divide_columns z_m composition_poly
    let coeffs := constraint_loop self.cc.constraints 0 self.coefficients divided.2
    if coeffs.length = degree_of coeffs + 2 then
      some (divided.1, { self with coefficients := coeffs })
    else none

-- ================================================================
-- Phase 3: final degree adjustment
-- ================================================================

/-- Phase 3 (`adjust_degree`): asserts that the degree is exactly
`poly_size - 2`, computes `C(x) * cc.degree.1 + x * C(x) * cc.degree.2` as
two accumulate-with-scalar passes into a freshly zeroed buffer (the second
pass writing into the slice shifted by one position, sourced from the
coefficients without their last entry), and asserts that the resulting
degree is exactly `poly_size - 1`. -/
def adjust_degree {R : Type} [CommRing R] [DecidableEq R]
    (self : DeepCompositionPoly R) : Option (DeepCompositionPoly R) :=
  if self.coefficients.length = degree_of self.coefficients + 2 then
    let c := self.coefficients
    let result := mul_acc (List.replicate c.length 0) c self.cc.degree.1
    let result :=
      match result with
      | [] => []
      | r0 :: rs => r0 :: mul_acc rs (c.take (c.length - 1)) self.cc.degree.2
    if result.length = degree_of result + 1 then
      some { self with coefficients := result }
    else none
  else none

-- ================================================================
-- Phase 4: low-degree extension
-- ================================================================

/-- Modelled from the spec: the extended-domain descriptor consumed by the
transform evaluator; the trace twiddles determine a generator of the
extended domain, and the descriptor further supplies the coset offset and
the blow-up factor. -/
structure StarkDomain (R : Type) where
  lde_gen : R
  offset : R
  blowup : Nat

/-- Modelled from the spec: the transform evaluator
(`fft::evaluate_poly_with_offset`) evaluates a coefficient vector over the
coset-shifted extended domain of size `p.length * blowup`; the value at
index `i` is the sum of `p[j] * (offset * gen ^ i) ^ j` over all
coefficient indices `j`. -/
def evaluate_poly_with_offset {R : Type} [CommRing R] (p : List R)
    (gen : R) (offset : R) (blowup : Nat) : List R :=
  (List.range (p.length * blowup)).map fun i =>
    (List.range p.length).foldr
      (fun j acc => p.getD j 0 * (offset * gen ^ i) ^ j + acc) 0

/-- Phase 4 (`evaluate`, terminal): consumes the Composer and produces the
low-degree-extended codeword over the domain described by `domain`. -/
def DeepCompositionPoly.evaluate {R : Type} [CommRing R]
    (self : DeepCompositionPoly R) (domain : StarkDomain R) : List R :=
  evaluate_poly_with_offset self.coefficients domain.lde_gen domain.offset
    domain.blowup

-- ================================================================
-- Accessors
-- ================================================================

/-- Accessor `poly_size`: the length of the coefficient vector. -/
def DeepCompositionPoly.poly_size {R : Type} (self : DeepCompositionPoly R) : Nat :=
  self.coefficients.length

/-- Accessor `degree`: the degree of the coefficient vector. -/
def DeepCompositionPoly.degree {R : Type} [CommRing R] [DecidableEq R]
    (self : DeepCompositionPoly R) : Nat :=
  degree_of self.coefficients

-- ================================================================
-- Specification-side combination forms (for refinement comparison)
-- ================================================================

/-- Indexed coefficient-wise sum of a family of length-`n` vectors over a
list, starting at index `i`; the empty sum is the zero vector of length
`n`. -/
def list_sum_n {R α : Type} [CommRing R] (n : Nat) (f : Nat → α → List R) :
    Nat → List α → List R
  | _, [] => List.replicate n 0
  | i, p :: ps => add_in_place (f i p) (list_sum_n n f (i + 1) ps)

/-- Specification form of the per-register contribution of phase 1: the
quotient `(T(x) - T(z)) / (x - z)` scaled by the first coefficient, plus
the quotient at `next_z` scaled by the second, plus (when the extension is
active) the quotient at `conj z` against the conjugated trace state scaled
by the third. -/
def traceTerm {R : Type} [CommRing R] (conj : R → R) (ct : Nat → R × R × R)
    (fe : Bool) (z next_z : R) (i : Nat) (p : List R) : List R :=
  add_in_place
    (add_in_place (scale (syn_div z (sub_const p (polyEval p z))) (ct i).1)
      (scale (syn_div next_z (sub_const p (polyEval p next_z))) (ct i).2.1))
    (if fe then scale (syn_div (conj z) (sub_const p (conj (polyEval p z)))) (ct i).2.2
     else [])

/-- Specification form of the whole phase-1 combination: per-register
contributions summed over all registers. -/
def traceTermSum {R : Type} [CommRing R] (conj : R → R) (ct : Nat → R × R × R)
    (fe : Bool) (z next_z : R) (n : Nat) (polys : List (List R)) : List R :=
  list_sum_n n (traceTerm conj ct fe z next_z) 0 polys

/-- Specification form of the per-column contribution of phase 2: the
quotient `(H(x) - H(z_m)) / (x - z_m)` scaled by the column coefficient. -/
def constraintTerm {R : Type} [CommRing R] (ccC : Nat → R) (z_m : R)
    (i : Nat) (p : List R) : List R :=
  scale (syn_div z_m (sub_const p (polyEval p z_m))) (ccC i)

/-- Specification form of the whole phase-2 addition: per-column
contributions summed over all columns. -/
def constraintTermSum {R : Type} [CommRing R] (ccC : Nat → R) (z_m : R)
    (n : Nat) (cols : List (List R)) : List R :=
  list_sum_n n (constraintTerm ccC z_m) 0 cols

-- ================================================================
-- Concrete instances used by the witnesses
-- ================================================================

/-- Concrete coefficient bundle over `ZMod 17`: trace triples `(1, 1, 0)`,
constraint coefficients `1`, degree pair `(1, 1)`. -/
def cc17 : CompositionCoefficients (ZMod 17) :=
  ⟨fun _ => (1, 1, 0), fun _ => 1, (1, 1)⟩

/-- Concrete empty Composer over `ZMod 17` with challenge `z = 2` and no
field extension. -/
def composer17 : DeepCompositionPoly (ZMod 17) :=
  ⟨[], cc17, 2, false⟩

/-- Concrete one-register trace table of trace length 4 over `ZMod 17`:
the single trace polynomial is `x ^ 3`. -/
def polys17 : List (List (ZMod 17)) :=
  [[0, 0, 0, 1]]

/-- Concrete product ring with a nontrivial ring involution: the swap on
the two components models the extension-field conjugate, and the diagonal
elements model the image of the base field. -/
def conj6 (a : ZMod 3 × ZMod 3) : ZMod 3 × ZMod 3 :=
  (a.2, a.1)

/-- Concrete coefficient bundle over the product ring, with a nonzero
conjugate-term coefficient in every trace triple. -/
def cc6 : CompositionCoefficients (ZMod 3 × ZMod 3) :=
  ⟨fun _ => (1, 1, 1), fun _ => 1, (1, 1)⟩

/-- Concrete one-register trace table of trace length 2 over the product
ring; the coefficients are diagonal, that is fixed by the conjugate. -/
def polys6 : List (List (ZMod 3 × ZMod 3)) :=
  [[(1, 1), (2, 2)]]

/-- Concrete Composer state over `ZMod 17` holding the phase-1 output
coefficient vector for the run of `composer17` on `polys17`. -/
def composer17b : DeepCompositionPoly (ZMod 17) :=
  ⟨[0, 10, 2, 0], cc17, 2, false⟩

/-- Concrete Composer state over `ZMod 17` holding the phase-2 output
coefficient vector of the same run. -/
def composer17c : DeepCompositionPoly (ZMod 17) :=
  ⟨[4, 12, 3, 0], cc17, 2, false⟩

/-- Concrete Composer state over `ZMod 17` with a nonzero coefficient
vector of length 1, used to exercise the phase-1 entry assertion. -/
def composer17d : DeepCompositionPoly (ZMod 17) :=
  ⟨[1], cc17, 2, false⟩

-- ================================================================
-- Length lemmas
-- ================================================================

lemma mul_acc_length {R : Type} [CommRing R] :
    ∀ (a b : List R) (k : R), (mul_acc a b k).length = a.length := by
  intro a
  induction a with
  | nil => intro b k; cases b <;> rfl
  | cons x xs ih =>
    intro b k
    cases b with
    | nil => rfl
    | cons y ys => simp [mul_acc, ih]

lemma add_in_place_length {R : Type} [CommRing R] :
    ∀ a b : List R, (add_in_place a b).length = a.length := by
  intro a
  induction a with
  | nil => intro b; cases b <;> rfl
  | cons x xs ih =>
    intro b
    cases b with
    | nil => rfl
    | cons y ys => simp [add_in_place, ih]

lemma sub_const_length {R : Type} [CommRing R] (p : List R) (v : R) :
    (sub_const p v).length = p.length := by
  cases p <;> rfl

lemma scale_length {R : Type} [CommRing R] (p : List R) (k : R) :
    (scale p k).length = p.length := by
  simp [scale]

lemma acc_poly_length {R : Type} [CommRing R] (a b : List R) (v k : R) :
    (acc_poly a b v k).length = a.length := by
  simp [acc_poly, sub_const_length, mul_acc_length]

lemma syn_div_aux_snd_length {R : Type} [CommRing R] (b : R) :
    ∀ p : List R, (syn_div_aux b p).2.length = p.length := by
  intro p
  induction p with
  | nil => rfl
  | cons c t ih => simp [syn_div_aux] at ih ⊢; simpa using ih

lemma syn_div_length {R : Type} [CommRing R] (b : R) (p : List R) :
    (syn_div b p).length = p.length := by
  simpa [syn_div] using syn_div_aux_snd_length b p

-- ================================================================
-- Additive structure of coefficient-wise operations
-- ================================================================

lemma add_in_place_nil_right {R : Type} [CommRing R] (a : List R) :
    add_in_place a [] = a := by
  cases a <;> rfl

lemma add_in_place_nil_left {R : Type} [CommRing R] (b : List R) :
    add_in_place [] b = [] := by
  cases b <;> rfl

lemma add_in_place_replicate_zero_left {R : Type} [CommRing R] :
    ∀ (x : List R), add_in_place (List.replicate x.length 0) x = x := by
  intro x
  induction x with
  | nil => rfl
  | cons c t ih => simp [List.replicate, add_in_place, ih]

lemma add_in_place_replicate_zero_right {R : Type} [CommRing R] :
    ∀ (a : List R) (n : Nat), add_in_place a (List.replicate n 0) = a := by
  intro a
  induction a with
  | nil => intro n; exact add_in_place_nil_left _
  | cons c t ih =>
    intro n
    cases n with
    | zero => rfl
    | succ m => simp [List.replicate, add_in_place, ih]

lemma add_in_place_comm {R : Type} [CommRing R] :
    ∀ a b : List R, a.length = b.length → add_in_place a b = add_in_place b a := by
  intro a
  induction a with
  | nil =>
    intro b h
    cases b with
    | nil => rfl
    | cons y ys => simp at h
  | cons x xs ih =>
    intro b h
    cases b with
    | nil => simp at h
    | cons y ys =>
      simp only [List.length_cons, Nat.succ.injEq] at h
      simp [add_in_place, ih ys h, add_comm]

lemma add_in_place_assoc {R : Type} [CommRing R] :
    ∀ a b c : List R, c.length ≤ b.length →
      add_in_place (add_in_place a b) c = add_in_place a (add_in_place b c) := by
  intro a
  induction a with
  | nil => intro b c _; simp [add_in_place_nil_left]
  | cons x xs ih =>
    intro b c h
    cases b with
    | nil =>
      cases c with
      | nil => rfl
      | cons z zs => simp at h
    | cons y ys =>
      cases c with
      | nil => simp [add_in_place, add_in_place_nil_right]
      | cons z zs =>
        simp only [List.length_cons, Nat.succ_le_succ_iff] at h
        simp [add_in_place, ih ys zs h, add_assoc]

lemma add_in_place_four {R : Type} [CommRing R] :
    ∀ a b c d : List R, b.length = a.length → c.length = a.length →
      d.length = a.length →
      add_in_place (add_in_place a b) (add_in_place c d) =
        add_in_place (add_in_place a c) (add_in_place b d) := by
  intro a
  induction a with
  | nil =>
    intro b c d hb hc hd
    simp only [List.length_nil, List.length_eq_zero] at hb hc hd
    subst hb; subst hc; subst hd; rfl
  | cons x xs ih =>
    intro b c d hb hc hd
    cases b with
    | nil => simp at hb
    | cons y ys =>
      cases c with
      | nil => simp at hc
      | cons z zs =>
        cases d with
        | nil => simp at hd
        | cons w ws =>
          simp only [List.length_cons, Nat.succ.injEq] at hb hc hd
          simp [add_in_place, ih ys zs ws hb hc hd]
          ring

-- ================================================================
-- Accumulation as addition of a scaled vector
-- ================================================================

lemma mul_acc_eq_add_scale {R : Type} [CommRing R] :
    ∀ (a b : List R) (k : R), mul_acc a b k = add_in_place a (scale b k) := by
  intro a
  induction a with
  | nil => intro b k; cases b <;> simp [mul_acc, add_in_place_nil_left]
  | cons x xs ih =>
    intro b k
    cases b with
    | nil => rfl
    | cons y ys => simp [mul_acc, scale, add_in_place, ih]

lemma acc_poly_eq_add_scale {R : Type} [CommRing R] (a b : List R) (v k : R)
    (h : b = [] → a = []) :
    acc_poly a b v k = add_in_place a (scale (sub_const b v) k) := by
  cases b with
  | nil =>
    have ha : a = [] := h rfl
    subst ha
    rfl
  | cons c t =>
    cases a with
    | nil => simp [acc_poly, mul_acc, sub_const, add_in_place_nil_left]
    | cons x xs =>
      simp [acc_poly, mul_acc_eq_add_scale, scale, sub_const, add_in_place]
      ring

-- ================================================================
-- Evaluation lemmas
-- ================================================================

lemma polyEval_nil {R : Type} [CommRing R] (x : R) : polyEval ([] : List R) x = 0 :=
  rfl

lemma polyEval_cons {R : Type} [CommRing R] (c : R) (t : List R) (x : R) :
    polyEval (c :: t) x = c + x * polyEval t x := rfl

lemma polyEval_replicate_zero {R : Type} [CommRing R] (n : Nat) (x : R) :
    polyEval (List.replicate n (0 : R)) x = 0 := by
  induction n with
  | zero => rfl
  | succ m ih => simp [List.replicate, polyEval_cons, ih]

lemma polyEval_add_in_place {R : Type} [CommRing R] :
    ∀ a b : List R, b.length ≤ a.length → ∀ x : R,
      polyEval (add_in_place a b) x = polyEval a x + polyEval b x := by
  intro a
  induction a with
  | nil =>
    intro b h x
    simp only [List.length_nil, Nat.le_zero, List.length_eq_zero] at h
    subst h
    simp [add_in_place_nil_left, polyEval_nil]
  | cons c t ih =>
    intro b h x
    cases b with
    | nil => simp [add_in_place_nil_right, polyEval_nil]
    | cons d s =>
      simp only [List.length_cons, Nat.succ_le_succ_iff] at h
      simp [add_in_place, polyEval_cons, ih s h x]
      ring

lemma polyEval_scale {R : Type} [CommRing R] (p : List R) (k x : R) :
    polyEval (scale p k) x = k * polyEval p x := by
  induction p with
  | nil => simp [scale, polyEval_nil]
  | cons c t ih => simp [scale, polyEval_cons] at ih ⊢; rw [ih]; ring

lemma polyEval_sub_const {R : Type} [CommRing R] (c : R) (t : List R) (v x : R) :
    polyEval (sub_const (c :: t) v) x = polyEval (c :: t) x - v := by
  simp [sub_const, polyEval_cons]
  ring

lemma polyEval_sum_form {R : Type} [CommRing R] :
    ∀ (p : List R) (x : R),
      (List.range p.length).foldr (fun j acc => p.getD j 0 * x ^ j + acc) 0 =
        polyEval p x := by
  intro p
  induction p with
  | nil => intro x; rfl
  | cons c t ih =>
    intro x
    rw [List.length_cons, List.range_succ_eq_map]
    rw [List.foldr_cons, List.foldr_map]
    have hshift :
        ∀ (l : List Nat),
          l.foldr (fun j acc => (c :: t).getD (j + 1) 0 * x ^ (j + 1) + acc) 0 =
            x * l.foldr (fun j acc => t.getD j 0 * x ^ j + acc) 0 := by
      intro l
      induction l with
      | nil => simp
      | cons j js ihl =>
        simp only [List.foldr_cons, ihl]
        simp [List.getD_cons_succ, pow_succ]
        ring
    simp only [Nat.succ_eq_add_one] at hshift
    rw [hshift, ih x, polyEval_cons]
    simp [List.getD_cons_zero]

-- ================================================================
-- Synthetic division lemmas
-- ================================================================

lemma syn_div_aux_nil {R : Type} [CommRing R] (b : R) :
    syn_div_aux b ([] : List R) = (0, []) := rfl

lemma syn_div_aux_cons {R : Type} [CommRing R] (b c : R) (t : List R) :
    syn_div_aux b (c :: t) =
      (c + b * (syn_div_aux b t).1, (syn_div_aux b t).1 :: (syn_div_aux b t).2) := rfl

lemma syn_div_aux_fst {R : Type} [CommRing R] (b : R) :
    ∀ p : List R, (syn_div_aux b p).1 = polyEval p b := by
  intro p
  induction p with
  | nil => rfl
  | cons c t ih => rw [syn_div_aux_cons, ih, polyEval_cons]

lemma polyEval_syn_div {R : Type} [CommRing R] (b : R) :
    ∀ (p : List R) (x : R),
      polyEval p x = polyEval (syn_div b p) x * (x - b) + polyEval p b := by
  intro p
  induction p with
  | nil => intro x; simp [syn_div, syn_div_aux_nil, polyEval_nil]
  | cons c t ih =>
    intro x
    have hq : syn_div b (c :: t) = (syn_div_aux b t).1 :: syn_div b t := by
      simp [syn_div, syn_div_aux_cons]
    rw [hq, polyEval_cons, polyEval_cons, polyEval_cons, syn_div_aux_fst, ih x]
    ring

lemma syn_div_aux_add {R : Type} [CommRing R] (b : R) :
    ∀ p q : List R, p.length = q.length →
      syn_div_aux b (add_in_place p q) =
        ((syn_div_aux b p).1 + (syn_div_aux b q).1,
         add_in_place (syn_div_aux b p).2 (syn_div_aux b q).2) := by
  intro p
  induction p with
  | nil =>
    intro q h
    simp only [List.length_nil] at h
    have : q = [] := by
      cases q with
      | nil => rfl
      | cons y ys => simp at h
    subst this
    simp [add_in_place_nil_left, syn_div_aux_nil]
  | cons c t ih =>
    intro q h
    cases q with
    | nil => simp at h
    | cons d s =>
      simp only [List.length_cons, Nat.succ.injEq] at h
      rw [add_in_place, syn_div_aux_cons, ih s h, syn_div_aux_cons, syn_div_aux_cons]
      simp [add_in_place]
      ring

lemma syn_div_aux_scale {R : Type} [CommRing R] (b k : R) :
    ∀ p : List R,
      syn_div_aux b (scale p k) =
        (k * (syn_div_aux b p).1, scale (syn_div_aux b p).2 k) := by
  intro p
  induction p with
  | nil => simp [scale, syn_div_aux_nil]
  | cons c t ih =>
    have hsc : scale (c :: t) k = c * k :: scale t k := rfl
    rw [hsc, syn_div_aux_cons, ih, syn_div_aux_cons]
    simp only [Prod.mk.injEq]
    refine ⟨by ring, ?_⟩
    have : scale ((syn_div_aux b t).1 :: (syn_div_aux b t).2) k =
        (syn_div_aux b t).1 * k :: scale (syn_div_aux b t).2 k := rfl
    rw [this, mul_comm]

lemma syn_div_add {R : Type} [CommRing R] (b : R) (p q : List R)
    (h : p.length = q.length) :
    syn_div b (add_in_place p q) = add_in_place (syn_div b p) (syn_div b q) := by
  simp [syn_div, syn_div_aux_add b p q h]

lemma syn_div_scale {R : Type} [CommRing R] (b k : R) (p : List R) :
    syn_div b (scale p k) = scale (syn_div b p) k := by
  simp [syn_div, syn_div_aux_scale]

lemma syn_div_replicate_zero {R : Type} [CommRing R] (b : R) (n : Nat) :
    syn_div b (List.replicate n (0 : R)) = List.replicate n 0 := by
  have haux : syn_div_aux b (List.replicate n (0 : R)) = (0, List.replicate n 0) := by
    induction n with
    | zero => rfl
    | succ m ih => simp [List.replicate, syn_div_aux_cons, ih]
  simp [syn_div, haux]

-- ================================================================
-- Degree lemmas
-- ================================================================

lemma last_nonzero_none_getD {R : Type} [CommRing R] [DecidableEq R] :
    ∀ p : List R, last_nonzero p = none → ∀ j, p.getD j 0 = 0 := by
  intro p
  induction p with
  | nil => intro _ j; simp
  | cons c t ih =>
    intro h j
    rw [last_nonzero] at h
    cases hmatch : last_nonzero t with
    | some i => rw [hmatch] at h; exact absurd h (by simp)
    | none =>
      rw [hmatch] at h
      by_cases hc : c = 0
      · cases j with
        | zero => simpa using hc
        | succ m => simpa using ih hmatch m
      · simp [hc] at h

lemma last_nonzero_some_getD_zero {R : Type} [CommRing R] [DecidableEq R] :
    ∀ p : List R, ∀ i, last_nonzero p = some i → ∀ j, i < j → p.getD j 0 = 0 := by
  intro p
  induction p with
  | nil => intro i h; exact absurd h (by simp [last_nonzero])
  | cons c t ih =>
    intro i h j hij
    rw [last_nonzero] at h
    cases hmatch : last_nonzero t with
    | some i0 =>
      rw [hmatch] at h
      simp only [Option.some.injEq] at h
      subst h
      cases j with
      | zero => exact absurd hij (by simp)
      | succ m =>
        have : i0 < m := by omega
        simpa using ih i0 hmatch m this
    | none =>
      rw [hmatch] at h
      by_cases hc : c = 0
      · simp [hc] at h
      · simp only [hc, if_false] at h
        simp only [Option.some.injEq] at h
        subst h
        cases j with
        | zero => exact absurd hij (by simp)
        | succ m => simpa using last_nonzero_none_getD t hmatch m

lemma degree_plus_two_top_zero {R : Type} [CommRing R] [DecidableEq R]
    (p : List R) (h : p.length = degree_of p + 2) :
    p.getD (p.length - 1) 0 = 0 := by
  cases hmatch : last_nonzero p with
  | none =>
    exact last_nonzero_none_getD p hmatch (p.length - 1)
  | some i =>
    have hd : degree_of p = i := by simp [degree_of, hmatch]
    rw [hd] at h
    have : i < p.length - 1 := by omega
    exact last_nonzero_some_getD_zero p i hmatch (p.length - 1) this

lemma polyEval_take_top_zero {R : Type} [CommRing R] :
    ∀ p : List R, p.getD (p.length - 1) 0 = 0 → ∀ x,
      polyEval (p.take (p.length - 1)) x = polyEval p x := by
  intro p
  induction p with
  | nil => intro _ x; rfl
  | cons c t ih =>
    intro h x
    cases t with
    | nil =>
      simp only [List.length_singleton, Nat.sub_self, List.take_zero] at h ⊢
      simp only [List.getD_cons_zero] at h
      simp [polyEval_nil, polyEval_cons, h]
    | cons d s =>
      have hlen : (c :: d :: s).length - 1 = (d :: s).length := by simp
      have htake : (c :: d :: s).take ((c :: d :: s).length - 1) =
          c :: (d :: s).take ((d :: s).length - 1) := by
        rw [hlen]
        have h1 : (d :: s).length = ((d :: s).length - 1) + 1 := by simp
        conv_lhs => rw [h1]
        rw [List.take_succ_cons]
      have hgd : (c :: d :: s).getD ((c :: d :: s).length - 1) 0 =
          (d :: s).getD ((d :: s).length - 1) 0 := by
        rw [hlen]
        have h1 : (d :: s).length = ((d :: s).length - 1) + 1 := by simp
        conv_lhs => rw [h1]
        rw [List.getD_cons_succ]
      rw [hgd] at h
      rw [htake, polyEval_cons, polyEval_cons, ih h x]

-- ================================================================
-- Indexed sum lemmas
-- ================================================================

lemma list_sum_n_length {R α : Type} [CommRing R] (n : Nat) (f : Nat → α → List R) :
    ∀ (L : List α) (j : Nat), (∀ i x, x ∈ L → (f i x).length = n) →
      (list_sum_n n f j L).length = n := by
  intro L
  induction L with
  | nil => intro j _; simp [list_sum_n]
  | cons p ps ih =>
    intro j h
    rw [list_sum_n, add_in_place_length]
    exact h j p (List.mem_cons_self p ps)

lemma list_sum_n_congr {R α : Type} [CommRing R] (n : Nat)
    (f g : Nat → α → List R) :
    ∀ (L : List α) (j : Nat), (∀ i x, x ∈ L → f i x = g i x) →
      list_sum_n n f j L = list_sum_n n g j L := by
  intro L
  induction L with
  | nil => intro j _; rfl
  | cons p ps ih =>
    intro j h
    rw [list_sum_n, list_sum_n, h j p (List.mem_cons_self p ps),
      ih (j + 1) (fun i x hx => h i x (List.mem_cons_of_mem p hx))]

lemma list_sum_n_add {R α : Type} [CommRing R] (n : Nat)
    (f g : Nat → α → List R) :
    ∀ (L : List α) (j : Nat),
      (∀ i x, x ∈ L → (f i x).length = n) →
      (∀ i x, x ∈ L → (g i x).length = n) →
      list_sum_n n (fun i x => add_in_place (f i x) (g i x)) j L =
        add_in_place (list_sum_n n f j L) (list_sum_n n g j L) := by
  intro L
  induction L with
  | nil =>
    intro j _ _
    simp [list_sum_n, add_in_place_replicate_zero_right]
  | cons p ps ih =>
    intro j hf hg
    have hf' : ∀ i x, x ∈ ps → (f i x).length = n :=
      fun i x hx => hf i x (List.mem_cons_of_mem p hx)
    have hg' : ∀ i x, x ∈ ps → (g i x).length = n :=
      fun i x hx => hg i x (List.mem_cons_of_mem p hx)
    rw [list_sum_n, list_sum_n, list_sum_n, ih (j + 1) hf' hg']
    have hfp : (f j p).length = n := hf j p (List.mem_cons_self p ps)
    have hgp : (g j p).length = n := hg j p (List.mem_cons_self p ps)
    have hsf : (list_sum_n n f (j + 1) ps).length = n := list_sum_n_length n f ps (j + 1) hf'
    have hsg : (list_sum_n n g (j + 1) ps).length = n := list_sum_n_length n g ps (j + 1) hg'
    exact add_in_place_four (f j p) (g j p) (list_sum_n n f (j + 1) ps)
      (list_sum_n n g (j + 1) ps) (by rw [hgp, hfp]) (by rw [hsf, hfp]) (by rw [hsg, hfp])

lemma list_sum_n_syn_div {R α : Type} [CommRing R] (n : Nat) (d : R)
    (f : Nat → α → List R) :
    ∀ (L : List α) (j : Nat), (∀ i x, x ∈ L → (f i x).length = n) →
      syn_div d (list_sum_n n f j L) =
        list_sum_n n (fun i x => syn_div d (f i x)) j L := by
  intro L
  induction L with
  | nil => intro j _; simp [list_sum_n, syn_div_replicate_zero]
  | cons p ps ih =>
    intro j h
    have h' : ∀ i x, x ∈ ps → (f i x).length = n :=
      fun i x hx => h i x (List.mem_cons_of_mem p hx)
    have hfp : (f j p).length = n := h j p (List.mem_cons_self p ps)
    have hs : (list_sum_n n f (j + 1) ps).length = n := list_sum_n_length n f ps (j + 1) h'
    rw [list_sum_n, list_sum_n, syn_div_add d _ _ (by rw [hfp, hs]), ih (j + 1) h']

lemma list_sum_n_map {R α β : Type} [CommRing R] (n : Nat)
    (f : Nat → β → List R) (m : α → β) :
    ∀ (L : List α) (j : Nat),
      list_sum_n n f j (L.map m) = list_sum_n n (fun i x => f i (m x)) j L := by
  intro L
  induction L with
  | nil => intro j; rfl
  | cons p ps ih => intro j; rw [List.map_cons, list_sum_n, list_sum_n, ih (j + 1)]

-- ================================================================
-- Trace loop decomposition
-- ================================================================

lemma trace_loop_eq {R : Type} [CommRing R] (conj : R → R) (ct : Nat → R × R × R)
    (fe : Bool) (n : Nat) :
    ∀ (L : List (List R × R × R)) (i : Nat) (t1 t2 t3 : List R),
      t1.length = n → t2.length = n → (fe = true → t3.length = n) →
      (∀ x ∈ L, (x.1 : List R).length = n) →
      trace_loop conj ct fe i L (t1, t2, t3) =
        (add_in_place t1
          (list_sum_n n (fun j x => scale (sub_const x.1 x.2.1) (ct j).1) i L),
         add_in_place t2
          (list_sum_n n (fun j x => scale (sub_const x.1 x.2.2) (ct j).2.1) i L),
         if fe then
           add_in_place t3
            (list_sum_n n (fun j x => scale (sub_const x.1 (conj x.2.1)) (ct j).2.2) i L)
         else t3) := by
  intro L
  induction L with
  | nil =>
    intro i t1 t2 t3 h1 h2 h3 _
    cases fe with
    | false =>
      simp only [trace_loop, list_sum_n, if_false, Bool.false_eq_true]
      rw [add_in_place_replicate_zero_right, add_in_place_replicate_zero_right]
    | true =>
      simp only [trace_loop, list_sum_n, if_true]
      rw [add_in_place_replicate_zero_right, add_in_place_replicate_zero_right,
        add_in_place_replicate_zero_right]
  | cons x xs ih =>
    intro i t1 t2 t3 h1 h2 h3 hx
    obtain ⟨p, v1, v2⟩ := x
    have hp : p.length = n := hx (p, v1, v2) (List.mem_cons_self _ _)
    have hxs : ∀ y ∈ xs, (y.1 : List R).length = n :=
      fun y hy => hx y (List.mem_cons_of_mem _ hy)
    have hnil1 : p = [] → t1 = [] := by
      intro hpe
      rw [hpe] at hp
      simp only [List.length_nil] at hp
      rw [← hp] at h1
      exact List.length_eq_zero.mp h1
    have hnil2 : p = [] → t2 = [] := by
      intro hpe
      rw [hpe] at hp
      simp only [List.length_nil] at hp
      rw [← hp] at h2
      exact List.length_eq_zero.mp h2
    have hsum1len : ∀ j y, y ∈ xs →
        ((fun j x => scale (sub_const (x.1 : List R) x.2.1) (ct j).1) j y).length = n := by
      intro j y hy
      simp only [scale_length, sub_const_length]
      exact hxs y hy
    have hsum2len : ∀ j y, y ∈ xs →
        ((fun j x => scale (sub_const (x.1 : List R) x.2.2) (ct j).2.1) j y).length = n := by
      intro j y hy
      simp only [scale_length, sub_const_length]
      exact hxs y hy
    have hsum3len : ∀ j y, y ∈ xs →
        ((fun j x => scale (sub_const (x.1 : List R) (conj x.2.1)) (ct j).2.2) j y).length = n := by
      intro j y hy
      simp only [scale_length, sub_const_length]
      exact hxs y hy
    have hap1 : (acc_poly t1 p v1 (ct i).1).length = n := by
      rw [acc_poly_length]; exact h1
    have hap2 : (acc_poly t2 p v2 (ct i).2.1).length = n := by
      rw [acc_poly_length]; exact h2
    have h3' : fe = true →
        (if fe then acc_poly t3 p (conj v1) (ct i).2.2 else t3).length = n := by
      intro hfe
      subst hfe
      simp only [if_true]
      rw [acc_poly_length]
      exact h3 rfl
    rw [trace_loop, ih (i + 1) _ _ _ hap1 hap2 h3' hxs]
    have e1 : add_in_place (acc_poly t1 p v1 (ct i).1)
        (list_sum_n n (fun j x => scale (sub_const x.1 x.2.1) (ct j).1) (i + 1) xs) =
        add_in_place t1
          (list_sum_n n (fun j x => scale (sub_const x.1 x.2.1) (ct j).1) i
            ((p, v1, v2) :: xs)) := by
      rw [list_sum_n, acc_poly_eq_add_scale t1 p v1 (ct i).1 hnil1]
      refine add_in_place_assoc t1 _ _ ?_
      rw [list_sum_n_length n _ xs (i + 1) hsum1len, scale_length, sub_const_length, hp]
    have e2 : add_in_place (acc_poly t2 p v2 (ct i).2.1)
        (list_sum_n n (fun j x => scale (sub_const x.1 x.2.2) (ct j).2.1) (i + 1) xs) =
        add_in_place t2
          (list_sum_n n (fun j x => scale (sub_const x.1 x.2.2) (ct j).2.1) i
            ((p, v1, v2) :: xs)) := by
      rw [list_sum_n, acc_poly_eq_add_scale t2 p v2 (ct i).2.1 hnil2]
      refine add_in_place_assoc t2 _ _ ?_
      rw [list_sum_n_length n _ xs (i + 1) hsum2len, scale_length, sub_const_length, hp]
    cases fe with
    | false =>
      simp only [if_false, Bool.false_eq_true]
      rw [e1, e2]
    | true =>
      simp only [if_true]
      have hnil3 : p = [] → t3 = [] := by
        intro hpe
        rw [hpe] at hp
        simp only [List.length_nil] at hp
        have := h3 rfl
        rw [← hp] at this
        exact List.length_eq_zero.mp this
      have e3 : add_in_place (acc_poly t3 p (conj v1) (ct i).2.2)
          (list_sum_n n (fun j x => scale (sub_const x.1 (conj x.2.1)) (ct j).2.2) (i + 1) xs) =
          add_in_place t3
            (list_sum_n n (fun j x => scale (sub_const x.1 (conj x.2.1)) (ct j).2.2) i
              ((p, v1, v2) :: xs)) := by
        rw [list_sum_n, acc_poly_eq_add_scale t3 p (conj v1) (ct i).2.2 hnil3]
        refine add_in_place_assoc t3 _ _ ?_
        rw [list_sum_n_length n _ xs (i + 1) hsum3len, scale_length, sub_const_length, hp]
      rw [e1, e2, e3]

-- ================================================================
-- Merge lemmas
-- ================================================================

lemma isEmpty_false_of_length_pos {R : Type} (l : List R) (h : 0 < l.length) :
    l.isEmpty = false := by
  cases l with
  | nil => simp at h
  | cons c t => rfl

lemma fold_add_step_length {R : Type} [CommRing R] (acc q : List R) :
    (if q.isEmpty then acc else add_in_place acc q).length = acc.length := by
  by_cases hq : q.isEmpty
  · rw [if_pos hq]
  · rw [if_neg hq, add_in_place_length]

lemma merge_three_length {R : Type} [CommRing R] (b1 b2 b3 : List R)
    (d1 d2 d3 : R) :
    (merge_trace_compositions [b1, b2, b3] [d1, d2, d3]).length = b1.length := by
  simp only [merge_trace_compositions, div_each]
  rw [List.foldl_cons, List.foldl_cons, List.foldl_nil]
  rw [fold_add_step_length, fold_add_step_length]
  by_cases h1 : b1.isEmpty
  · rw [if_pos h1]
  · rw [if_neg h1, syn_div_length]

lemma merge_three_eq {R : Type} [CommRing R] (b1 b2 b3 : List R) (d1 d2 d3 : R)
    (h1 : 0 < b1.length) (h2 : 0 < b2.length) :
    merge_trace_compositions [b1, b2, b3] [d1, d2, d3] =
      if b3.isEmpty then add_in_place (syn_div d1 b1) (syn_div d2 b2)
      else add_in_place (add_in_place (syn_div d1 b1) (syn_div d2 b2))
        (syn_div d3 b3) := by
  have he1 : b1.isEmpty = false := isEmpty_false_of_length_pos b1 h1
  have he2 : b2.isEmpty = false := isEmpty_false_of_length_pos b2 h2
  have heq2 : (syn_div d2 b2).isEmpty = false := by
    refine isEmpty_false_of_length_pos _ ?_
    rw [syn_div_length]
    exact h2
  simp only [merge_trace_compositions, div_each, he1, he2, Bool.false_eq_true,
    if_false, List.foldl_cons, List.foldl_nil, heq2]
  by_cases h3 : b3.isEmpty
  · have hb3 : b3 = [] := by
      cases b3 with
      | nil => rfl
      | cons c t => simp at h3
    subst hb3
    simp
  · have he3 : b3.isEmpty = false := by
      cases hb : b3.isEmpty with
      | false => rfl
      | true => exact absurd hb h3
    have heq3 : (syn_div d3 b3).isEmpty = false := by
      refine isEmpty_false_of_length_pos _ ?_
      rw [syn_div_length]
      cases b3 with
      | nil => simp at he3
      | cons c t => simp
    simp only [he3, Bool.false_eq_true, if_false, heq3]

lemma zip_map_triple {R : Type} [CommRing R] (f h : List R → R) :
    ∀ polys : List (List R),
      polys.zip ((polys.map f).zip (polys.map h)) =
        polys.map (fun p => (p, f p, h p)) := by
  intro polys
  induction polys with
  | nil => rfl
  | cons p ps ih => simp [List.zip_cons_cons, ih]

-- ================================================================
-- Characterization of the merged trace composition
-- ================================================================

lemma add_replicate_zero_of_length {R : Type} [CommRing R] (n : Nat) (X : List R)
    (h : X.length = n) : add_in_place (List.replicate n 0) X = X := by
  subst h
  exact add_in_place_replicate_zero_left X

lemma trace_merge_eq {R : Type} [CommRing R] (conj : R → R)
    (cc : CompositionCoefficients R) (fe : Bool) (z g : R)
    (polys : List (List R)) (hn : 0 < table_poly_size polys)
    (hlen : ∀ p ∈ polys, p.length = table_poly_size polys) :
    trace_merge conj cc fe z g polys =
      traceTermSum conj cc.trace fe z (z * g) (table_poly_size polys) polys := by
  simp only [trace_merge, trace_buffers, evaluate_at]
  set n := table_poly_size polys with hn_def
  rw [zip_map_triple (fun p => polyEval p z) (fun p => polyEval p (z * g)) polys]
  have hLlen : ∀ x ∈ polys.map (fun p => (p, polyEval p z, polyEval p (z * g))),
      (x.1 : List R).length = n := by
    intro x hx
    obtain ⟨p, hp, rfl⟩ := List.mem_map.mp hx
    exact hlen p hp
  have h3init : fe = true → (if fe then List.replicate n (0 : R) else []).length = n := by
    intro hfe
    subst hfe
    simp
  rw [trace_loop_eq conj cc.trace fe n _ 0 _ _ _ (List.length_replicate n 0)
    (List.length_replicate n 0) h3init hLlen]
  -- convert the three sums from the zipped list to sums over the registers
  rw [list_sum_n_map, list_sum_n_map, list_sum_n_map]
  have hs1len : ∀ i p, p ∈ polys →
      ((fun i p => scale (sub_const p (polyEval p z)) (cc.trace i).1) i p).length = n := by
    intro i p hp
    simp only [scale_length, sub_const_length]
    exact hlen p hp
  have hs2len : ∀ i p, p ∈ polys →
      ((fun i p => scale (sub_const p (polyEval p (z * g))) (cc.trace i).2.1) i p).length = n := by
    intro i p hp
    simp only [scale_length, sub_const_length]
    exact hlen p hp
  have hs3len : ∀ i p, p ∈ polys →
      ((fun i p => scale (sub_const p (conj (polyEval p z))) (cc.trace i).2.2) i p).length = n := by
    intro i p hp
    simp only [scale_length, sub_const_length]
    exact hlen p hp
  have hS1len : (list_sum_n n (fun i p => scale (sub_const p (polyEval p z))
      (cc.trace i).1) 0 polys).length = n := list_sum_n_length n _ polys 0 hs1len
  have hS2len : (list_sum_n n (fun i p => scale (sub_const p (polyEval p (z * g)))
      (cc.trace i).2.1) 0 polys).length = n := list_sum_n_length n _ polys 0 hs2len
  have hS3len : (list_sum_n n (fun i p => scale (sub_const p (conj (polyEval p z)))
      (cc.trace i).2.2) 0 polys).length = n := list_sum_n_length n _ polys 0 hs3len
  -- the zero-vector initial buffers are absorbed
  have habs1 : add_in_place (List.replicate n (0 : R))
      (list_sum_n n (fun i p => scale (sub_const p (polyEval p z)) (cc.trace i).1) 0 polys) =
      list_sum_n n (fun i p => scale (sub_const p (polyEval p z)) (cc.trace i).1) 0 polys :=
    add_replicate_zero_of_length n _ hS1len
  have habs2 : add_in_place (List.replicate n (0 : R))
      (list_sum_n n (fun i p => scale (sub_const p (polyEval p (z * g))) (cc.trace i).2.1) 0 polys) =
      list_sum_n n (fun i p => scale (sub_const p (polyEval p (z * g))) (cc.trace i).2.1) 0 polys :=
    add_replicate_zero_of_length n _ hS2len
  cases fe with
  | false =>
    simp only [if_false, Bool.false_eq_true, habs1, habs2]
    rw [merge_three_eq _ _ _ _ _ _ (by rw [hS1len]; exact hn) (by rw [hS2len]; exact hn)]
    simp only [List.isEmpty_nil, if_true]
    rw [list_sum_n_syn_div n z _ polys 0 hs1len, list_sum_n_syn_div n (z * g) _ polys 0 hs2len]
    have hq1 : list_sum_n n (fun i p => syn_div z (scale (sub_const p (polyEval p z))
        (cc.trace i).1)) 0 polys =
        list_sum_n n (fun i p => scale (syn_div z (sub_const p (polyEval p z)))
        (cc.trace i).1) 0 polys := by
      refine list_sum_n_congr n _ _ polys 0 ?_
      intro i p _
      exact syn_div_scale z (cc.trace i).1 (sub_const p (polyEval p z))
    have hq2 : list_sum_n n (fun i p => syn_div (z * g) (scale (sub_const p (polyEval p (z * g)))
        (cc.trace i).2.1)) 0 polys =
        list_sum_n n (fun i p => scale (syn_div (z * g) (sub_const p (polyEval p (z * g))))
        (cc.trace i).2.1) 0 polys := by
      refine list_sum_n_congr n _ _ polys 0 ?_
      intro i p _
      exact syn_div_scale (z * g) (cc.trace i).2.1 (sub_const p (polyEval p (z * g)))
    rw [hq1, hq2]
    rw [traceTermSum]
    have hterm : ∀ i p, p ∈ polys → traceTerm conj cc.trace false z (z * g) i p =
        add_in_place (scale (syn_div z (sub_const p (polyEval p z))) (cc.trace i).1)
          (scale (syn_div (z * g) (sub_const p (polyEval p (z * g)))) (cc.trace i).2.1) := by
      intro i p _
      rw [traceTerm]
      simp only [if_false, Bool.false_eq_true]
      exact add_in_place_nil_right _
    rw [list_sum_n_congr n _ _ polys 0 hterm]
    rw [list_sum_n_add n _ _ polys 0 (by
        intro i p hp
        simp only [scale_length, syn_div_length, sub_const_length]
        exact hlen p hp)
      (by
        intro i p hp
        simp only [scale_length, syn_div_length, sub_const_length]
        exact hlen p hp)]
  | true =>
    simp only [if_true, habs1, habs2]
    have habs3 : add_in_place (List.replicate n (0 : R))
        (list_sum_n n (fun i p => scale (sub_const p (conj (polyEval p z))) (cc.trace i).2.2) 0 polys) =
        list_sum_n n (fun i p => scale (sub_const p (conj (polyEval p z))) (cc.trace i).2.2) 0 polys :=
      add_replicate_zero_of_length n _ hS3len
    rw [habs3]
    rw [merge_three_eq _ _ _ _ _ _ (by rw [hS1len]; exact hn) (by rw [hS2len]; exact hn)]
    have hne3 : (list_sum_n n (fun i p => scale (sub_const p (conj (polyEval p z)))
        (cc.trace i).2.2) 0 polys).isEmpty = false := by
      refine isEmpty_false_of_length_pos _ ?_
      rw [hS3len]
      exact hn
    rw [hne3]
    simp only [Bool.false_eq_true, if_false]
    rw [list_sum_n_syn_div n z _ polys 0 hs1len, list_sum_n_syn_div n (z * g) _ polys 0 hs2len,
      list_sum_n_syn_div n (conj z) _ polys 0 hs3len]
    have hq1 : list_sum_n n (fun i p => syn_div z (scale (sub_const p (polyEval p z))
        (cc.trace i).1)) 0 polys =
        list_sum_n n (fun i p => scale (syn_div z (sub_const p (polyEval p z)))
        (cc.trace i).1) 0 polys := by
      refine list_sum_n_congr n _ _ polys 0 ?_
      intro i p _
      exact syn_div_scale z (cc.trace i).1 (sub_const p (polyEval p z))
    have hq2 : list_sum_n n (fun i p => syn_div (z * g) (scale (sub_const p (polyEval p (z * g)))
        (cc.trace i).2.1)) 0 polys =
        list_sum_n n (fun i p => scale (syn_div (z * g) (sub_const p (polyEval p (z * g))))
        (cc.trace i).2.1) 0 polys := by
      refine list_sum_n_congr n _ _ polys 0 ?_
      intro i p _
      exact syn_div_scale (z * g) (cc.trace i).2.1 (sub_const p (polyEval p (z * g)))
    have hq3 : list_sum_n n (fun i p => syn_div (conj z) (scale (sub_const p (conj (polyEval p z)))
        (cc.trace i).2.2)) 0 polys =
        list_sum_n n (fun i p => scale (syn_div (conj z) (sub_const p (conj (polyEval p z))))
        (cc.trace i).2.2) 0 polys := by
      refine list_sum_n_congr n _ _ polys 0 ?_
      intro i p _
      exact syn_div_scale (conj z) (cc.trace i).2.2 (sub_const p (conj (polyEval p z)))
    rw [hq1, hq2, hq3]
    rw [traceTermSum]
    have hterm : ∀ i p, p ∈ polys → traceTerm conj cc.trace true z (z * g) i p =
        add_in_place
          (add_in_place (scale (syn_div z (sub_const p (polyEval p z))) (cc.trace i).1)
            (scale (syn_div (z * g) (sub_const p (polyEval p (z * g)))) (cc.trace i).2.1))
          (scale (syn_div (conj z) (sub_const p (conj (polyEval p z)))) (cc.trace i).2.2) := by
      intro i p _
      simp [traceTerm]
    rw [list_sum_n_congr n _ _ polys 0 hterm]
    have hlen12 : ∀ i p, p ∈ polys →
        ((fun i p => add_in_place
          (scale (syn_div z (sub_const p (polyEval p z))) (cc.trace i).1)
          (scale (syn_div (z * g)
            (sub_const p (polyEval p (z * g)))) (cc.trace i).2.1)) i p).length = n := by
      intro i p hp
      simp only [add_in_place_length, scale_length, syn_div_length, sub_const_length]
      exact hlen p hp
    have hlen3q : ∀ i p, p ∈ polys →
        ((fun i p => scale (syn_div (conj z) (sub_const p (conj (polyEval p z))))
          (cc.trace i).2.2) i p).length = n := by
      intro i p hp
      simp only [scale_length, syn_div_length, sub_const_length]
      exact hlen p hp
    rw [list_sum_n_add n _ _ polys 0 hlen12 hlen3q]
    rw [list_sum_n_add n _ _ polys 0 (by
        intro i p hp
        simp only [scale_length, syn_div_length, sub_const_length]
        exact hlen p hp)
      (by
        intro i p hp
        simp only [scale_length, syn_div_length, sub_const_length]
        exact hlen p hp)]

-- ================================================================
-- Length preservation through the phases
-- ================================================================

lemma trace_loop_lengths {R : Type} [CommRing R] (conj : R → R)
    (ct : Nat → R × R × R) (fe : Bool) :
    ∀ (L : List (List R × R × R)) (i : Nat) (t1 t2 t3 : List R),
      (trace_loop conj ct fe i L (t1, t2, t3)).1.length = t1.length ∧
      (trace_loop conj ct fe i L (t1, t2, t3)).2.1.length = t2.length ∧
      (trace_loop conj ct fe i L (t1, t2, t3)).2.2.length = t3.length := by
  intro L
  induction L with
  | nil => intro i t1 t2 t3; exact ⟨rfl, rfl, rfl⟩
  | cons x xs ih =>
    intro i t1 t2 t3
    obtain ⟨p, v1, v2⟩ := x
    rw [trace_loop]
    obtain ⟨ih1, ih2, ih3⟩ := ih (i + 1) (acc_poly t1 p v1 (ct i).1)
      (acc_poly t2 p v2 (ct i).2.1)
      (if fe then acc_poly t3 p (conj v1) (ct i).2.2 else t3)
    refine ⟨?_, ?_, ?_⟩
    · rw [ih1, acc_poly_length]
    · rw [ih2, acc_poly_length]
    · rw [ih3]
      by_cases hfe : fe
      · rw [if_pos hfe, acc_poly_length]
      · rw [if_neg hfe]

lemma trace_merge_length {R : Type} [CommRing R] (conj : R → R)
    (cc : CompositionCoefficients R) (fe : Bool) (z g : R)
    (polys : List (List R)) :
    (trace_merge conj cc fe z g polys).length = table_poly_size polys := by
  simp only [trace_merge, trace_buffers, evaluate_at]
  rw [merge_three_length]
  rw [(trace_loop_lengths conj cc.trace fe _ 0 _ _ _).1, List.length_replicate]

lemma constraint_loop_length {R : Type} [CommRing R] (ccC : Nat → R) :
    ∀ (L : List (List R)) (i : Nat) (acc : List R),
      (constraint_loop ccC i acc L).length = acc.length := by
  intro L
  induction L with
  | nil => intro i acc; rfl
  | cons p ps ih =>
    intro i acc
    rw [constraint_loop, ih (i + 1), mul_acc_length]

lemma adjust_result_length {R : Type} [CommRing R] (c : List R) (d0 d1 : R) :
    (match mul_acc (List.replicate c.length 0) c d0 with
      | [] => ([] : List R)
      | r0 :: rs => r0 :: mul_acc rs (c.take (c.length - 1)) d1).length = c.length := by
  have hlen : (mul_acc (List.replicate c.length 0) c d0).length = c.length := by
    rw [mul_acc_length, List.length_replicate]
  cases hm : mul_acc (List.replicate c.length 0) c d0 with
  | nil => rw [hm] at hlen; simpa using hlen
  | cons r0 rs =>
    rw [hm] at hlen
    simp only [List.length_cons, mul_acc_length]
    rw [← hlen]
    simp

-- ================================================================
-- Constraint loop decomposition
-- ================================================================

lemma constraint_loop_eq {R : Type} [CommRing R] (ccC : Nat → R) (n : Nat) :
    ∀ (L : List (List R)) (i : Nat) (acc : List R), acc.length = n →
      (∀ p ∈ L, p.length = n) →
      constraint_loop ccC i acc L =
        add_in_place acc (list_sum_n n (fun j p => scale p (ccC j)) i L) := by
  intro L
  induction L with
  | nil =>
    intro i acc hacc _
    rw [constraint_loop, list_sum_n, ← hacc, add_in_place_replicate_zero_right]
  | cons p ps ih =>
    intro i acc hacc hL
    have hp : p.length = n := hL p (List.mem_cons_self p ps)
    have hps : ∀ q ∈ ps, q.length = n := fun q hq => hL q (List.mem_cons_of_mem p hq)
    have hmlen : (mul_acc acc p (ccC i)).length = n := by rw [mul_acc_length, hacc]
    rw [constraint_loop, ih (i + 1) _ hmlen hps, list_sum_n, mul_acc_eq_add_scale]
    refine add_in_place_assoc acc _ _ ?_
    rw [list_sum_n_length n _ ps (i + 1) (by
        intro j q hq
        rw [scale_length]
        exact hps q hq), scale_length, hp]

lemma divide_columns_eq {R : Type} [CommRing R] (z_m : R) :
    ∀ cp : List (List R),
      divide_columns z_m cp =
        (cp.map (fun p => polyEval p z_m),
         cp.map (fun p => syn_div z_m (sub_const p (polyEval p z_m)))) := by
  intro cp
  induction cp with
  | nil => rfl
  | cons p ps ih => simp only [divide_columns, ih, List.map_cons]

-- ================================================================
-- Inversion lemmas for the fallible phases
-- ================================================================

lemma add_trace_polys_inv {R : Type} [CommRing R] [DecidableEq R] (conj : R → R)
    (g : R) (self : DeepCompositionPoly R) (polys : List (List R))
    (r : EvaluationFrame R × DeepCompositionPoly R)
    (h : add_trace_polys conj g self polys = some r) :
    self.coefficients.isEmpty = true ∧
    r.2.coefficients = trace_merge conj self.cc self.field_extension self.z g polys ∧
    r.2.coefficients.length = degree_of r.2.coefficients + 2 ∧
    r.1.current = evaluate_at polys self.z ∧
    r.1.next = evaluate_at polys (self.z * g) ∧
    r.2.coefficients.length = table_poly_size polys ∧
    r.2.cc = self.cc ∧ r.2.z = self.z ∧
    r.2.field_extension = self.field_extension := by
  simp only [add_trace_polys] at h
  by_cases he : self.coefficients.isEmpty
  · rw [if_pos he] at h
    by_cases hg : (trace_merge conj self.cc self.field_extension self.z g polys).length =
        degree_of (trace_merge conj self.cc self.field_extension self.z g polys) + 2
    · rw [if_pos hg] at h
      simp only [Option.some.injEq] at h
      subst h
      refine ⟨he, rfl, ?_, rfl, rfl, ?_, rfl, rfl, rfl⟩
      · exact hg
      · exact trace_merge_length conj self.cc self.field_extension self.z g polys
    · rw [if_neg hg] at h
      exact absurd h (by simp)
  · rw [if_neg he] at h
    exact absurd h (by simp)

lemma add_composition_poly_inv {R : Type} [CommRing R] [DecidableEq R]
    (self : DeepCompositionPoly R) (cp : List (List R))
    (r : List R × DeepCompositionPoly R)
    (h : add_composition_poly self cp = some r) :
    self.coefficients.isEmpty = false ∧
    r.1 = (divide_columns (self.z ^ cp.length) cp).1 ∧
    r.2.coefficients = constraint_loop self.cc.constraints 0 self.coefficients
      (divide_columns (self.z ^ cp.length) cp).2 ∧
    r.2.coefficients.length = degree_of r.2.coefficients + 2 ∧
    r.2.coefficients.length = self.coefficients.length ∧
    r.2.cc = self.cc ∧ r.2.z = self.z ∧
    r.2.field_extension = self.field_extension := by
  simp only [add_composition_poly] at h
  by_cases he : self.coefficients.isEmpty
  · rw [if_pos he] at h
    exact absurd h (by simp)
  · rw [if_neg he] at h
    by_cases hg : (constraint_loop self.cc.constraints 0 self.coefficients
        (divide_columns (self.z ^ cp.length) cp).2).length =
        degree_of (constraint_loop self.cc.constraints 0 self.coefficients
          (divide_columns (self.z ^ cp.length) cp).2) + 2
    · rw [if_pos hg] at h
      simp only [Option.some.injEq] at h
      subst h
      refine ⟨by simpa using he, rfl, rfl, hg, ?_, rfl, rfl, rfl⟩
      exact constraint_loop_length self.cc.constraints _ 0 self.coefficients
    · rw [if_neg hg] at h
      exact absurd h (by simp)

lemma adjust_degree_inv {R : Type} [CommRing R] [DecidableEq R]
    (self : DeepCompositionPoly R) (s : DeepCompositionPoly R)
    (h : adjust_degree self = some s) :
    self.coefficients.length = degree_of self.coefficients + 2 ∧
    s.coefficients = (match mul_acc (List.replicate self.coefficients.length 0)
        self.coefficients self.cc.degree.1 with
      | [] => ([] : List R)
      | r0 :: rs => r0 :: mul_acc rs (self.coefficients.take
          (self.coefficients.length - 1)) self.cc.degree.2) ∧
    s.coefficients.length = degree_of s.coefficients + 1 ∧
    s.coefficients.length = self.coefficients.length ∧
    s.cc = self.cc ∧ s.z = self.z ∧ s.field_extension = self.field_extension := by
  simp only [adjust_degree] at h
  by_cases he : self.coefficients.length = degree_of self.coefficients + 2
  · rw [if_pos he] at h
    by_cases hg : (match mul_acc (List.replicate self.coefficients.length 0)
        self.coefficients self.cc.degree.1 with
      | [] => ([] : List R)
      | r0 :: rs => r0 :: mul_acc rs (self.coefficients.take
          (self.coefficients.length - 1)) self.cc.degree.2).length =
        degree_of (match mul_acc (List.replicate self.coefficients.length 0)
            self.coefficients self.cc.degree.1 with
          | [] => ([] : List R)
          | r0 :: rs => r0 :: mul_acc rs (self.coefficients.take
              (self.coefficients.length - 1)) self.cc.degree.2) + 1
    · rw [if_pos hg] at h
      simp only [Option.some.injEq] at h
      subst h
      refine ⟨he, rfl, hg, ?_, rfl, rfl, rfl⟩
      exact adjust_result_length self.coefficients self.cc.degree.1 self.cc.degree.2
    · rw [if_neg hg] at h
      exact absurd h (by simp)
  · rw [if_neg he] at h
    exact absurd h (by simp)

-- ================================================================
-- Claim theorems
-- ================================================================

/-- Claim C1: for every trace polynomial table whose polynomials each have
the trace length, a successful `add_trace_polys` sets the Composer
coefficient vector to the polynomial sum over all registers `i` of
`c1_i * (T_i(x) - T_i(z)) / (x - z)` plus
`c2_i * (T_i(x) - T_i(z * g)) / (x - z * g)`, plus
`c3_i * (T_i(x) - conj(T_i(z))) / (x - conj z)` when the field-extension
flag is set, where `next_z = z * g`; and it returns the frame of
per-register evaluations at `z` and `next_z`. -/
theorem C1_add_trace_polys_combination {R : Type} [CommRing R] [DecidableEq R]
    (conj : R → R) (g : R) (self : DeepCompositionPoly R)
    (polys : List (List R)) (hn : 0 < table_poly_size polys)
    (hlen : ∀ p ∈ polys, p.length = table_poly_size polys)
    (hs : (add_trace_polys conj g self polys).isSome = true) :
    (add_trace_polys conj g self polys).map
      (fun r => (r.1.current, r.1.next, r.2.coefficients)) =
      some (polys.map (fun p => polyEval p self.z),
            polys.map (fun p => polyEval p (self.z * g)),
            traceTermSum conj self.cc.trace self.field_extension self.z
              (self.z * g) (table_poly_size polys) polys) := by
  cases hr : add_trace_polys conj g self polys with
  | none => rw [hr] at hs; simp at hs
  | some r =>
    obtain ⟨-, hcoef, -, hcur, hnext, -, -, -, -⟩ :=
      add_trace_polys_inv conj g self polys r hr
    simp only [Option.map_some', Option.some.injEq, Prod.mk.injEq]
    refine ⟨?_, ?_, ?_⟩
    · rw [hcur]; rfl
    · rw [hnext]; rfl
    · rw [hcoef]
      exact trace_merge_eq conj self.cc self.field_extension self.z g polys hn hlen

/-- Witness for C1 at a concrete input: trace length 4, one register with
trace polynomial `x ^ 3` over `ZMod 17`, challenge `z = 2`, `g = 4`. -/
theorem C1_witness :
    0 < table_poly_size polys17 ∧
    (∀ p ∈ polys17, p.length = table_poly_size polys17) ∧
    (add_trace_polys (fun a => a) 4 composer17 polys17).isSome = true ∧
    (add_trace_polys (fun a => a) 4 composer17 polys17).map
      (fun r => (r.1.current, r.1.next, r.2.coefficients)) =
      some (polys17.map (fun p => polyEval p composer17.z),
            polys17.map (fun p => polyEval p (composer17.z * 4)),
            traceTermSum (fun a => a) composer17.cc.trace
              composer17.field_extension composer17.z (composer17.z * 4)
              (table_poly_size polys17) polys17) :=
  ⟨by decide, by decide, by decide,
   C1_add_trace_polys_combination (fun a => a) 4 composer17 polys17
     (by decide) (by decide) (by decide)⟩

/-- Claim C2: in every run that completes without a fatal assertion, the
degree of the Composer polynomial is exactly `trace_length - 2` after
`add_trace_polys`, unchanged after `add_composition_poly`, and exactly
`trace_length - 1` after `adjust_degree`. -/
theorem C2_degree_invariants {R : Type} [CommRing R] [DecidableEq R]
    (conj : R → R) (g : R) (self : DeepCompositionPoly R)
    (polys : List (List R)) (cp : List (List R)) :
    ((add_trace_polys conj g self polys).isSome = true →
      (add_trace_polys conj g self polys).map
        (fun r => degree_of r.2.coefficients) =
        some (table_poly_size polys - 2)) ∧
    (((add_trace_polys conj g self polys).bind
        (fun r => add_composition_poly r.2 cp)).isSome = true →
      ((add_trace_polys conj g self polys).bind
        (fun r => add_composition_poly r.2 cp)).map
        (fun r => degree_of r.2.coefficients) =
        some (table_poly_size polys - 2)) ∧
    ((((add_trace_polys conj g self polys).bind
        (fun r => add_composition_poly r.2 cp)).bind
        (fun r => adjust_degree r.2)).isSome = true →
      (((add_trace_polys conj g self polys).bind
        (fun r => add_composition_poly r.2 cp)).bind
        (fun r => adjust_degree r.2)).map
        (fun s => degree_of s.coefficients) =
        some (table_poly_size polys - 1)) := by
  refine ⟨?_, ?_, ?_⟩
  · intro hs
    cases hr : add_trace_polys conj g self polys with
    | none => rw [hr] at hs; simp at hs
    | some r =>
      obtain ⟨-, -, hdeg, -, -, hlen, -, -, -⟩ :=
        add_trace_polys_inv conj g self polys r hr
      simp only [Option.map_some', Option.some.injEq]
      omega
  · intro hs
    cases hr : add_trace_polys conj g self polys with
    | none => rw [hr] at hs; simp at hs
    | some r =>
      rw [hr] at hs
      simp only [Option.some_bind] at hs ⊢
      cases hr2 : add_composition_poly r.2 cp with
      | none => rw [hr2] at hs; simp at hs
      | some r2 =>
        obtain ⟨-, -, hdeg1, -, -, hlen1, -, -, -⟩ :=
          add_trace_polys_inv conj g self polys r hr
        obtain ⟨-, -, -, hdeg2, hlen2, -, -, -⟩ :=
          add_composition_poly_inv r.2 cp r2 hr2
        simp only [Option.map_some', Option.some.injEq]
        omega
  · intro hs
    cases hr : add_trace_polys conj g self polys with
    | none => rw [hr] at hs; simp at hs
    | some r =>
      rw [hr] at hs
      simp only [Option.some_bind] at hs ⊢
      cases hr2 : add_composition_poly r.2 cp with
      | none => rw [hr2] at hs; simp at hs
      | some r2 =>
        rw [hr2] at hs
        simp only [Option.some_bind] at hs ⊢
        cases hr3 : adjust_degree r2.2 with
        | none => rw [hr3] at hs; simp at hs
        | some s =>
          obtain ⟨-, -, hdeg1, -, -, hlen1, -, -, -⟩ :=
            add_trace_polys_inv conj g self polys r hr
          obtain ⟨-, -, -, hdeg2, hlen2, -, -, -⟩ :=
            add_composition_poly_inv r.2 cp r2 hr2
          obtain ⟨-, -, hdeg3, hlen3, -, -, -⟩ :=
            adjust_degree_inv r2.2 s hr3
          simp only [Option.map_some', Option.some.injEq]
          omega

/-- Witness for C2 at a concrete successful three-phase run over
`ZMod 17`, trace length 4: degree 2 after phase 1, still 2 after phase 2,
and 3 after phase 3. -/
theorem C2_witness :
    (add_trace_polys (fun a => a) 4 composer17 polys17).map
      (fun r => degree_of r.2.coefficients) =
      some (table_poly_size polys17 - 2) ∧
    ((add_trace_polys (fun a => a) 4 composer17 polys17).bind
      (fun r => add_composition_poly r.2 [[0, 0, 0, 1]])).map
      (fun r => degree_of r.2.coefficients) =
      some (table_poly_size polys17 - 2) ∧
    (((add_trace_polys (fun a => a) 4 composer17 polys17).bind
      (fun r => add_composition_poly r.2 [[0, 0, 0, 1]])).bind
      (fun r => adjust_degree r.2)).map
      (fun s => degree_of s.coefficients) =
      some (table_poly_size polys17 - 1) :=
  ⟨(C2_degree_invariants (fun a => a) 4 composer17 polys17 [[0, 0, 0, 1]]).1
      (by decide),
   (C2_degree_invariants (fun a => a) 4 composer17 polys17 [[0, 0, 0, 1]]).2.1
      (by decide),
   (C2_degree_invariants (fun a => a) 4 composer17 polys17 [[0, 0, 0, 1]]).2.2
      (by decide)⟩

/-- Claim C3: for every constraint composition polynomial with `m` columns
of the trace length, a successful `add_composition_poly` computes
`z_m = z ^ m`, adds `(H_i(x) - H_i(z_m)) / (x - z_m) * cc.constraints[i]`
into the Composer coefficient vector for every column `i`, and returns the
vector of evaluations `H_i(z_m)` in column order. -/
theorem C3_add_composition_poly_combination {R : Type} [CommRing R]
    [DecidableEq R] (self : DeepCompositionPoly R) (cp : List (List R))
    (hlen : ∀ p ∈ cp, p.length = self.coefficients.length)
    (hs : (add_composition_poly self cp).isSome = true) :
    (add_composition_poly self cp).map (fun r => (r.1, r.2.coefficients)) =
      some (cp.map (fun p => polyEval p (self.z ^ cp.length)),
            add_in_place self.coefficients
              (constraintTermSum self.cc.constraints (self.z ^ cp.length)
                self.coefficients.length cp)) := by
  cases hr : add_composition_poly self cp with
  | none => rw [hr] at hs; simp at hs
  | some r =>
    obtain ⟨-, hres, hcoef, -, -, -, -, -⟩ :=
      add_composition_poly_inv self cp r hr
    simp only [Option.map_some', Option.some.injEq, Prod.mk.injEq]
    constructor
    · rw [hres, divide_columns_eq]
    · rw [hcoef, divide_columns_eq]
      have hquot : ∀ q ∈ cp.map (fun p => syn_div (self.z ^ cp.length)
          (sub_const p (polyEval p (self.z ^ cp.length)))),
          q.length = self.coefficients.length := by
        intro q hq
        obtain ⟨p, hp, rfl⟩ := List.mem_map.mp hq
        rw [syn_div_length, sub_const_length]
        exact hlen p hp
      rw [constraint_loop_eq self.cc.constraints self.coefficients.length _ 0
        self.coefficients rfl hquot]
      rw [list_sum_n_map]
      rfl

/-- Witness for C3 at a concrete input: the phase-1 output state over
`ZMod 17` and a single constraint column `x ^ 3` of length 4. -/
theorem C3_witness :
    (∀ p ∈ [[(0 : ZMod 17), 0, 0, 1]], p.length = composer17b.coefficients.length) ∧
    (add_composition_poly composer17b [[0, 0, 0, 1]]).isSome = true ∧
    (add_composition_poly composer17b [[0, 0, 0, 1]]).map
      (fun r => (r.1, r.2.coefficients)) =
      some ([[(0 : ZMod 17), 0, 0, 1]].map
        (fun p => polyEval p (composer17b.z ^ ([[(0 : ZMod 17), 0, 0, 1]] : List (List (ZMod 17))).length)),
        add_in_place composer17b.coefficients
          (constraintTermSum composer17b.cc.constraints
            (composer17b.z ^ ([[(0 : ZMod 17), 0, 0, 1]] : List (List (ZMod 17))).length)
            composer17b.coefficients.length [[0, 0, 0, 1]])) :=
  ⟨by decide, by decide,
   C3_add_composition_poly_combination composer17b [[0, 0, 0, 1]]
     (by decide) (by decide)⟩

lemma adjust_match_eval {R : Type} [CommRing R] (c : List R) (d0 d1 : R)
    (hc : c ≠ []) (htop : c.getD (c.length - 1) 0 = 0) (x : R) :
    polyEval (match mul_acc (List.replicate c.length 0) c d0 with
      | [] => ([] : List R)
      | r0 :: rs => r0 :: mul_acc rs (c.take (c.length - 1)) d1) x =
      polyEval c x * (d0 + x * d1) := by
  obtain ⟨c0, ct, rfl⟩ := List.exists_cons_of_ne_nil hc
  have hr0 : mul_acc (List.replicate (c0 :: ct).length 0) (c0 :: ct) d0 =
      (c0 * d0) :: scale ct d0 := by
    rw [mul_acc_eq_add_scale, add_replicate_zero_of_length _ _ (scale_length _ _)]
    rfl
  rw [hr0]
  show polyEval ((c0 * d0) ::
    mul_acc (scale ct d0) ((c0 :: ct).take ((c0 :: ct).length - 1)) d1) x = _
  have htake_len : ((c0 :: ct).take ((c0 :: ct).length - 1)).length = ct.length := by
    simp [List.length_take]
  have hle : (scale ((c0 :: ct).take ((c0 :: ct).length - 1)) d1).length ≤
      (scale ct d0).length := by
    rw [scale_length, scale_length, htake_len]
  rw [polyEval_cons, mul_acc_eq_add_scale,
    polyEval_add_in_place _ _ hle x, polyEval_scale, polyEval_scale,
    polyEval_take_top_zero _ htop x, polyEval_cons]
  ring

/-- Claim C4: for every Composer whose coefficient vector `C` has degree
exactly `trace_length - 2`, a successful `adjust_degree` replaces it with
the polynomial `C(x) * d0 + x * C(x) * d1` where `(d0, d1) = cc.degree`,
and the result has degree exactly `trace_length - 1`. -/
theorem C4_adjust_degree_combination {R : Type} [CommRing R] [DecidableEq R]
    (self : DeepCompositionPoly R)
    (hs : (adjust_degree self).isSome = true) :
    ((adjust_degree self).map
      (fun s => (degree_of s.coefficients, s.coefficients.length)) =
      some (self.coefficients.length - 1, self.coefficients.length)) ∧
    (∀ x : R, (adjust_degree self).map (fun s => polyEval s.coefficients x) =
      some (polyEval self.coefficients x *
        (self.cc.degree.1 + x * self.cc.degree.2))) := by
  cases hr : adjust_degree self with
  | none => rw [hr] at hs; simp at hs
  | some s =>
    obtain ⟨hentry, hcoef, hexit, hlen, -, -, -⟩ := adjust_degree_inv self s hr
    have hcne : self.coefficients ≠ [] := by
      intro hnil
      rw [hnil] at hentry
      simp only [List.length_nil] at hentry
      omega
    constructor
    · simp only [Option.map_some', Option.some.injEq, Prod.mk.injEq]
      omega
    · intro x
      simp only [Option.map_some', Option.some.injEq]
      rw [hcoef]
      exact adjust_match_eval self.coefficients self.cc.degree.1
        self.cc.degree.2 hcne (degree_plus_two_top_zero _ hentry) x

/-- Witness for C4 at a concrete input: the phase-2 output state over
`ZMod 17`, with the evaluation identity checked at `x = 5`. -/
theorem C4_witness :
    (adjust_degree composer17c).isSome = true ∧
    ((adjust_degree composer17c).map
      (fun s => (degree_of s.coefficients, s.coefficients.length)) =
      some (composer17c.coefficients.length - 1, composer17c.coefficients.length)) ∧
    ((adjust_degree composer17c).map (fun s => polyEval s.coefficients 5) =
      some (polyEval composer17c.coefficients 5 *
        (composer17c.cc.degree.1 + 5 * composer17c.cc.degree.2))) :=
  ⟨by decide, (C4_adjust_degree_combination composer17c (by decide)).1,
   (C4_adjust_degree_combination composer17c (by decide)).2 5⟩

/-- Counterexample to claim C5 as stated: a concrete run over `ZMod 17` in
which `adjust_degree` (phase 3) is invoked directly after
`add_trace_polys` (phase 1), skipping its required predecessor
`add_composition_poly` (phase 2), and completes without any assertion
failure: the entry assertion only checks the degree, which phase 1 already
established. -/
theorem C5_counterexample :
    ((add_trace_polys (fun a => a) 4 composer17 polys17).bind
      (fun r => adjust_degree r.2)).isSome = true := by decide

/-- Claim C5 as amended: the assertions that are actually present fire
exactly as follows: `add_trace_polys` on a non-empty Composer aborts,
`add_composition_poly` on an empty Composer (phase 1 skipped) aborts, and
`adjust_degree` on an empty Composer (phase 1 skipped) aborts via its
degree assertion; but `adjust_degree` invoked after phase 1 with phase 2
skipped passes its assertion, and `evaluate` performs no phase-ordering
check of its own. -/
theorem C5_phase_order_asserts {R : Type} [CommRing R] [DecidableEq R]
    (conj : R → R) (g : R) (self : DeepCompositionPoly R)
    (polys cp : List (List R)) :
    (self.coefficients ≠ [] → add_trace_polys conj g self polys = none) ∧
    (self.coefficients = [] → add_composition_poly self cp = none) ∧
    (self.coefficients = [] → adjust_degree self = none) := by
  refine ⟨?_, ?_, ?_⟩
  · intro h
    cases hc : self.coefficients with
    | nil => exact absurd hc h
    | cons a t => simp [add_trace_polys, hc]
  · intro h
    simp [add_composition_poly, h]
  · intro h
    simp [adjust_degree, h, degree_of, last_nonzero]

/-- Witness for the amended C5 at concrete inputs over `ZMod 17`: phase 1
on a non-empty Composer aborts, and phases 2 and 3 on an empty Composer
abort. -/
theorem C5_witness :
    add_trace_polys (fun a => a) 4 composer17d polys17 = none ∧
    add_composition_poly composer17 [[0, 0, 0, 1]] = none ∧
    adjust_degree composer17 = none :=
  ⟨(C5_phase_order_asserts (fun a => a) 4 composer17d polys17
      [[0, 0, 0, 1]]).1 (by decide),
   (C5_phase_order_asserts (fun a => a) 4 composer17 polys17
      [[0, 0, 0, 1]]).2.1 (by decide),
   (C5_phase_order_asserts (fun a => a) 4 composer17 polys17
      [[0, 0, 0, 1]]).2.2 (by decide)⟩

lemma polyEval_mul_acc {R : Type} [CommRing R] (a b : List R)
    (h : b.length ≤ a.length) (k x : R) :
    polyEval (mul_acc a b k) x = polyEval a x + k * polyEval b x := by
  rw [mul_acc_eq_add_scale,
    polyEval_add_in_place _ _ (by rw [scale_length]; exact h) x, polyEval_scale]

lemma polyEval_sub_const_ne {R : Type} [CommRing R] (p : List R) (hp : p ≠ [])
    (v x : R) : polyEval (sub_const p v) x = polyEval p x - v := by
  obtain ⟨c, t, rfl⟩ := List.exists_cons_of_ne_nil hp
  exact polyEval_sub_const c t v x

lemma polyEval_acc_poly {R : Type} [CommRing R] (a b : List R) (v k x : R)
    (hab : b.length = a.length) (hb : b ≠ []) :
    polyEval (acc_poly a b v k) x = polyEval a x + k * (polyEval b x - v) := by
  have hma : mul_acc a b k ≠ [] := by
    intro hnil
    have := mul_acc_length a b k
    rw [hnil] at this
    simp only [List.length_nil] at this
    rw [← hab] at this
    exact hb (List.length_eq_zero.mp this.symm)
  rw [acc_poly, polyEval_sub_const_ne _ hma,
    polyEval_mul_acc a b (le_of_eq hab) k x]
  ring

lemma polyEval_conj {R : Type} [CommRing R] (conj : R → R)
    (hadd : ∀ a b : R, conj (a + b) = conj a + conj b)
    (hmul : ∀ a b : R, conj (a * b) = conj a * conj b) :
    ∀ p : List R, (∀ c ∈ p, conj c = c) → ∀ x : R,
      polyEval p (conj x) = conj (polyEval p x) := by
  have h0 : conj 0 = 0 := by
    have h := hadd 0 0
    rw [add_zero] at h
    have := add_left_cancel (a := conj (0 : R)) (b := (0 : R)) (c := conj (0 : R))
      (by rw [add_zero]; exact h)
    exact this.symm
  intro p
  induction p with
  | nil => intro _ x; simp [polyEval_nil, h0]
  | cons c t ih =>
    intro hfix x
    have hc : conj c = c := hfix c (List.mem_cons_self c t)
    have ht : ∀ d ∈ t, conj d = d := fun d hd => hfix d (List.mem_cons_of_mem c hd)
    rw [polyEval_cons, polyEval_cons, hadd, hmul, hc, ih ht x]

lemma trace_loop_fst_eval {R : Type} [CommRing R] (conj : R → R)
    (ct : Nat → R × R × R) (fe : Bool) (x0 : R) :
    ∀ (L : List (List R × R × R)) (i : Nat) (t1 t2 t3 : List R),
      0 < t1.length → (∀ y ∈ L, (y.1 : List R).length = t1.length) →
      (∀ y ∈ L, polyEval y.1 x0 = y.2.1) →
      polyEval (trace_loop conj ct fe i L (t1, t2, t3)).1 x0 = polyEval t1 x0 := by
  intro L
  induction L with
  | nil => intro i t1 t2 t3 _ _ _; rfl
  | cons y ys ih =>
    intro i t1 t2 t3 hpos hl hv
    obtain ⟨p, v1, v2⟩ := y
    have hp : p.length = t1.length := hl (p, v1, v2) (List.mem_cons_self _ _)
    have hpne : p ≠ [] := by
      intro hnil
      rw [hnil] at hp
      simp only [List.length_nil] at hp
      omega
    rw [trace_loop]
    rw [ih (i + 1) _ _ _ (by rw [acc_poly_length]; exact hpos)
      (by intro y hy; rw [acc_poly_length]; exact hl y (List.mem_cons_of_mem _ hy))
      (fun y hy => hv y (List.mem_cons_of_mem _ hy))]
    rw [polyEval_acc_poly t1 p v1 (ct i).1 x0 hp hpne,
      hv (p, v1, v2) (List.mem_cons_self _ _)]
    ring

lemma trace_loop_snd_eval {R : Type} [CommRing R] (conj : R → R)
    (ct : Nat → R × R × R) (fe : Bool) (x0 : R) :
    ∀ (L : List (List R × R × R)) (i : Nat) (t1 t2 t3 : List R),
      0 < t2.length → (∀ y ∈ L, (y.1 : List R).length = t2.length) →
      (∀ y ∈ L, polyEval y.1 x0 = y.2.2) →
      polyEval (trace_loop conj ct fe i L (t1, t2, t3)).2.1 x0 = polyEval t2 x0 := by
  intro L
  induction L with
  | nil => intro i t1 t2 t3 _ _ _; rfl
  | cons y ys ih =>
    intro i t1 t2 t3 hpos hl hv
    obtain ⟨p, v1, v2⟩ := y
    have hp : p.length = t2.length := hl (p, v1, v2) (List.mem_cons_self _ _)
    have hpne : p ≠ [] := by
      intro hnil
      rw [hnil] at hp
      simp only [List.length_nil] at hp
      omega
    rw [trace_loop]
    rw [ih (i + 1) _ _ _ (by rw [acc_poly_length]; exact hpos)
      (by intro y hy; rw [acc_poly_length]; exact hl y (List.mem_cons_of_mem _ hy))
      (fun y hy => hv y (List.mem_cons_of_mem _ hy))]
    rw [polyEval_acc_poly t2 p v2 (ct i).2.1 x0 hp hpne,
      hv (p, v1, v2) (List.mem_cons_self _ _)]
    ring

lemma trace_loop_thd_eval {R : Type} [CommRing R] (conj : R → R)
    (ct : Nat → R × R × R) (x0 : R) :
    ∀ (L : List (List R × R × R)) (i : Nat) (t1 t2 t3 : List R),
      0 < t3.length → (∀ y ∈ L, (y.1 : List R).length = t3.length) →
      (∀ y ∈ L, polyEval y.1 x0 = conj y.2.1) →
      polyEval (trace_loop conj ct true i L (t1, t2, t3)).2.2 x0 = polyEval t3 x0 := by
  intro L
  induction L with
  | nil => intro i t1 t2 t3 _ _ _; rfl
  | cons y ys ih =>
    intro i t1 t2 t3 hpos hl hv
    obtain ⟨p, v1, v2⟩ := y
    have hp : p.length = t3.length := hl (p, v1, v2) (List.mem_cons_self _ _)
    have hpne : p ≠ [] := by
      intro hnil
      rw [hnil] at hp
      simp only [List.length_nil] at hp
      omega
    rw [trace_loop]
    simp only [if_true]
    rw [ih (i + 1) _ _ _ (by rw [acc_poly_length]; exact hpos)
      (by intro y hy; rw [acc_poly_length]; exact hl y (List.mem_cons_of_mem _ hy))
      (fun y hy => hv y (List.mem_cons_of_mem _ hy))]
    rw [polyEval_acc_poly t3 p (conj v1) (ct i).2.2 x0 hp hpne,
      hv (p, v1, v2) (List.mem_cons_self _ _)]
    ring

/-- Claim C6: for every trace polynomial table, each accumulated buffer
built by `acc_poly` evaluates to exactly zero at its divisor root (`z`,
`next_z`, or `conj z` respectively, the last under a ring-morphism
conjugate fixing the base-field coefficients), so the synthetic division
performed in the merge leaves a zero remainder, and the division is exact:
quotient times `(x - z)` reconstructs the buffer. -/
theorem C6_division_exactness {R : Type} [CommRing R] [DecidableEq R]
    (conj : R → R) (cc : CompositionCoefficients R) (fe : Bool) (z g : R)
    (polys : List (List R)) (hn : 0 < table_poly_size polys)
    (hlen : ∀ p ∈ polys, p.length = table_poly_size polys)
    (hadd : ∀ a b : R, conj (a + b) = conj a + conj b)
    (hmul : ∀ a b : R, conj (a * b) = conj a * conj b)
    (hfix : ∀ p ∈ polys, ∀ c ∈ p, conj c = c) :
    polyEval (trace_buffers conj cc fe z g polys).1 z = 0 ∧
    polyEval (trace_buffers conj cc fe z g polys).2.1 (z * g) = 0 ∧
    (fe = true → polyEval (trace_buffers conj cc fe z g polys).2.2 (conj z) = 0) ∧
    (syn_div_aux z (trace_buffers conj cc fe z g polys).1).1 = 0 ∧
    (syn_div_aux (z * g) (trace_buffers conj cc fe z g polys).2.1).1 = 0 ∧
    (fe = true → (syn_div_aux (conj z) (trace_buffers conj cc fe z g polys).2.2).1 = 0) ∧
    (∀ x : R, polyEval (trace_buffers conj cc fe z g polys).1 x =
      polyEval (syn_div z (trace_buffers conj cc fe z g polys).1) x * (x - z)) := by
  have hL := zip_map_triple (fun p => polyEval p z) (fun p => polyEval p (z * g)) polys
  have hlen1 : ∀ y ∈ polys.map (fun p => (p, polyEval p z, polyEval p (z * g))),
      (y.1 : List R).length = (List.replicate (table_poly_size polys) (0 : R)).length := by
    intro y hy
    obtain ⟨p, hp, rfl⟩ := List.mem_map.mp hy
    rw [List.length_replicate]
    exact hlen p hp
  have hpos : 0 < (List.replicate (table_poly_size polys) (0 : R)).length := by
    rw [List.length_replicate]
    exact hn
  have hv1 : ∀ y ∈ polys.map (fun p => (p, polyEval p z, polyEval p (z * g))),
      polyEval (y.1 : List R) z = y.2.1 := by
    intro y hy
    obtain ⟨p, hp, rfl⟩ := List.mem_map.mp hy
    rfl
  have hv2 : ∀ y ∈ polys.map (fun p => (p, polyEval p z, polyEval p (z * g))),
      polyEval (y.1 : List R) (z * g) = y.2.2 := by
    intro y hy
    obtain ⟨p, hp, rfl⟩ := List.mem_map.mp hy
    rfl
  have hv3 : ∀ y ∈ polys.map (fun p => (p, polyEval p z, polyEval p (z * g))),
      polyEval (y.1 : List R) (conj z) = conj y.2.1 := by
    intro y hy
    obtain ⟨p, hp, rfl⟩ := List.mem_map.mp hy
    exact polyEval_conj conj hadd hmul p (hfix p hp) z
  have h1 : polyEval (trace_buffers conj cc fe z g polys).1 z = 0 := by
    simp only [trace_buffers, evaluate_at]
    rw [hL, trace_loop_fst_eval conj cc.trace fe z _ 0 _ _ _ hpos hlen1 hv1]
    exact polyEval_replicate_zero _ z
  have h2 : polyEval (trace_buffers conj cc fe z g polys).2.1 (z * g) = 0 := by
    simp only [trace_buffers, evaluate_at]
    rw [hL, trace_loop_snd_eval conj cc.trace fe (z * g) _ 0 _ _ _ hpos hlen1 hv2]
    exact polyEval_replicate_zero _ (z * g)
  have h3 : fe = true →
      polyEval (trace_buffers conj cc fe z g polys).2.2 (conj z) = 0 := by
    intro hfe
    subst hfe
    simp only [trace_buffers, evaluate_at, if_true]
    rw [hL, trace_loop_thd_eval conj cc.trace (conj z) _ 0 _ _ _ hpos hlen1 hv3]
    exact polyEval_replicate_zero _ (conj z)
  refine ⟨h1, h2, h3, ?_, ?_, ?_, ?_⟩
  · rw [syn_div_aux_fst]
    exact h1
  · rw [syn_div_aux_fst]
    exact h2
  · intro hfe
    rw [syn_div_aux_fst]
    exact h3 hfe
  · intro x
    have hdiv := polyEval_syn_div z (trace_buffers conj cc fe z g polys).1 x
    rw [h1, add_zero] at hdiv
    exact hdiv

/-- Witness for C6 at a concrete input: the product ring
`ZMod 3 x ZMod 3` with the swap conjugate, one register of trace length 2
with diagonal coefficients, field extension active. -/
theorem C6_witness :
    polyEval (trace_buffers conj6 cc6 true (1, 2) (2, 2) polys6).1 (1, 2) = 0 ∧
    polyEval (trace_buffers conj6 cc6 true (1, 2) (2, 2) polys6).2.1
      ((1, 2) * (2, 2)) = 0 ∧
    polyEval (trace_buffers conj6 cc6 true (1, 2) (2, 2) polys6).2.2
      (conj6 (1, 2)) = 0 ∧
    (syn_div_aux ((1, 2) : ZMod 3 × ZMod 3)
      (trace_buffers conj6 cc6 true (1, 2) (2, 2) polys6).1).1 = 0 ∧
    polyEval (trace_buffers conj6 cc6 true (1, 2) (2, 2) polys6).1 (0, 1) =
      polyEval (syn_div (1, 2)
        (trace_buffers conj6 cc6 true (1, 2) (2, 2) polys6).1) (0, 1) *
        ((0, 1) - (1, 2)) :=
  ⟨(C6_division_exactness conj6 cc6 true (1, 2) (2, 2) polys6 (by decide)
      (by decide) (by decide) (by decide) (by decide)).1,
   (C6_division_exactness conj6 cc6 true (1, 2) (2, 2) polys6 (by decide)
      (by decide) (by decide) (by decide) (by decide)).2.1,
   (C6_division_exactness conj6 cc6 true (1, 2) (2, 2) polys6 (by decide)
      (by decide) (by decide) (by decide) (by decide)).2.2.1 rfl,
   (C6_division_exactness conj6 cc6 true (1, 2) (2, 2) polys6 (by decide)
      (by decide) (by decide) (by decide) (by decide)).2.2.2.1,
   (C6_division_exactness conj6 cc6 true (1, 2) (2, 2) polys6 (by decide)
      (by decide) (by decide) (by decide) (by decide)).2.2.2.2.2.2 (0, 1)⟩

-- ================================================================
-- Extension-toggle lemmas
-- ================================================================

lemma mul_acc_zero_coeff {R : Type} [CommRing R] :
    ∀ t p : List R, mul_acc t p 0 = t := by
  intro t
  induction t with
  | nil => intro p; cases p <;> rfl
  | cons a s ih =>
    intro p
    cases p with
    | nil => rfl
    | cons b q => simp [mul_acc, ih]

lemma sub_const_zero {R : Type} [CommRing R] (t : List R) : sub_const t 0 = t := by
  cases t with
  | nil => rfl
  | cons c s => simp [sub_const]

lemma acc_poly_zero_coeff {R : Type} [CommRing R] (t p : List R) (v : R) :
    acc_poly t p v 0 = t := by
  rw [acc_poly, mul_acc_zero_coeff, mul_zero, sub_const_zero]

lemma trace_loop_false_thd {R : Type} [CommRing R] (conj : R → R)
    (ct : Nat → R × R × R) :
    ∀ (L : List (List R × R × R)) (i : Nat) (t1 t2 t3 : List R),
      (trace_loop conj ct false i L (t1, t2, t3)).2.2 = t3 := by
  intro L
  induction L with
  | nil => intro i t1 t2 t3; rfl
  | cons y ys ih =>
    intro i t1 t2 t3
    obtain ⟨p, v1, v2⟩ := y
    rw [trace_loop]
    simp only [Bool.false_eq_true, if_false]
    exact ih (i + 1) _ _ t3

lemma trace_loop_toggle {R : Type} [CommRing R] (conj : R → R)
    (ct ct2 : Nat → R × R × R) (h1 : ∀ j, (ct2 j).1 = (ct j).1)
    (h2 : ∀ j, (ct2 j).2.1 = (ct j).2.1) (h3 : ∀ j, (ct2 j).2.2 = 0) :
    ∀ (L : List (List R × R × R)) (i : Nat) (t1 t2 t3 t3b : List R),
      trace_loop conj ct2 true i L (t1, t2, t3) =
        ((trace_loop conj ct false i L (t1, t2, t3b)).1,
         (trace_loop conj ct false i L (t1, t2, t3b)).2.1, t3) := by
  intro L
  induction L with
  | nil => intro i t1 t2 t3 t3b; rfl
  | cons y ys ih =>
    intro i t1 t2 t3 t3b
    obtain ⟨p, v1, v2⟩ := y
    rw [trace_loop, trace_loop]
    simp only [if_true, Bool.false_eq_true, if_false]
    rw [h1 i, h2 i, h3 i, acc_poly_zero_coeff]
    exact ih (i + 1) _ _ t3 t3b

lemma merge_empty_third {R : Type} [CommRing R] (b1 b2 : List R) (d1 d2 d3 : R) :
    merge_trace_compositions [b1, b2, []] [d1, d2, d3] =
      merge_trace_compositions [b1, b2] [d1, d2] := by
  simp [merge_trace_compositions, div_each]

lemma merge_zero_third {R : Type} [CommRing R] (b1 b2 : List R) (d1 d2 d3 : R)
    (n : Nat) :
    merge_trace_compositions [b1, b2, List.replicate n 0] [d1, d2, d3] =
      merge_trace_compositions [b1, b2] [d1, d2] := by
  simp only [merge_trace_compositions, div_each, syn_div_replicate_zero, ite_self,
    List.foldl_cons, List.foldl_nil]
  have hstep : ∀ acc : List R,
      (if (List.replicate n (0 : R)).isEmpty then acc
       else add_in_place acc (List.replicate n 0)) = acc := by
    intro acc
    by_cases h : (List.replicate n (0 : R)).isEmpty
    · rw [if_pos h]
    · rw [if_neg h, add_in_place_replicate_zero_right]
  rw [hstep]

/-- Claim C7: running `add_trace_polys` with the field extension off
produces frames and a coefficient vector identical to running it with the
field extension on and every conjugate-term coefficient forced to zero;
and the merge skips an empty third buffer without performing the division
by its divisor. -/
theorem C7_extension_toggle {R : Type} [CommRing R] [DecidableEq R]
    (conj : R → R) (g z : R) (coeffs : List R)
    (cc : CompositionCoefficients R) (polys : List (List R)) :
    ((add_trace_polys conj g ⟨coeffs, cc, z, false⟩ polys).map
       (fun r => (r.1.current, r.1.next, r.2.coefficients)) =
     (add_trace_polys conj g
       ⟨coeffs, ⟨fun i => ((cc.trace i).1, (cc.trace i).2.1, 0),
                 cc.constraints, cc.degree⟩, z, true⟩ polys).map
       (fun r => (r.1.current, r.1.next, r.2.coefficients))) ∧
    (∀ (b1 b2 : List R) (d1 d2 d3 : R),
      merge_trace_compositions [b1, b2, []] [d1, d2, d3] =
        merge_trace_compositions [b1, b2] [d1, d2]) := by
  constructor
  · have hT : trace_merge conj
        ⟨fun i => ((cc.trace i).1, (cc.trace i).2.1, 0),
         cc.constraints, cc.degree⟩ true z g polys =
        trace_merge conj cc false z g polys := by
      simp only [trace_merge, trace_buffers, evaluate_at]
      simp only [if_true, Bool.false_eq_true, if_false]
      rw [trace_loop_toggle conj cc.trace
        (fun i => ((cc.trace i).1, (cc.trace i).2.1, 0))
        (fun j => rfl) (fun j => rfl) (fun j => rfl) _ 0 _ _ _ []]
      rw [trace_loop_false_thd conj cc.trace]
      rw [merge_zero_third, merge_empty_third]
    simp only [add_trace_polys]
    simp only [hT]
    by_cases he : coeffs.isEmpty
    · rw [if_pos he, if_pos he]
      by_cases hg : (trace_merge conj cc false z g polys).length =
          degree_of (trace_merge conj cc false z g polys) + 2
      · rw [if_pos hg, if_pos hg]
        rfl
      · rw [if_neg hg, if_neg hg]
    · rw [if_neg he, if_neg he]
  · intro b1 b2 d1 d2 d3
    exact merge_empty_third b1 b2 d1 d2 d3

lemma div_each_eq_concurrent {R : Type} [CommRing R] :
    ∀ (ps : List (List R)) (ds : List R),
      div_each ps ds = div_each_concurrent ps ds := by
  intro ps
  induction ps with
  | nil => intro ds; simp [div_each, div_each_concurrent]
  | cons p ps ih =>
    intro ds
    cases ds with
    | nil => simp [div_each, div_each_concurrent]
    | cons d dsx =>
      simp only [div_each, div_each_concurrent, List.zip_cons_cons, List.map_cons,
        List.cons_append, List.length_cons, List.drop_succ_cons]
      rw [ih dsx]
      rfl

/-- Claim C8: the serial and the concurrent (feature-gated)
implementations of `merge_trace_compositions` and of the per-column
division loop in `add_composition_poly` produce identical outputs on every
input. -/
theorem C8_serial_concurrent_equivalence {R : Type} [CommRing R] :
    (∀ (polys : List (List R)) (divisors : List R),
      merge_trace_compositions polys divisors =
        merge_trace_compositions_concurrent polys divisors) ∧
    (∀ (z_m : R) (cols : List (List R)),
      divide_columns z_m cols = divide_columns_concurrent z_m cols) := by
  constructor
  · intro polys divisors
    simp only [merge_trace_compositions, merge_trace_compositions_concurrent]
    rw [← div_each_eq_concurrent]
  · intro z_m cols
    rw [divide_columns_eq]
    rfl

/-- Claim C9: each element of the codeword returned by `evaluate` equals
the direct (Horner) evaluation of the Composer coefficient vector at the
corresponding coset-shifted extended-domain point. -/
theorem C9_lde_round_trip {R : Type} [CommRing R]
    (self : DeepCompositionPoly R) (domain : StarkDomain R) :
    self.evaluate domain =
      (List.range (self.coefficients.length * domain.blowup)).map
        (fun i => polyEval self.coefficients
          (domain.offset * domain.lde_gen ^ i)) := by
  simp only [DeepCompositionPoly.evaluate, evaluate_poly_with_offset]
  refine List.map_congr_left ?_
  intro i _
  exact polyEval_sum_form self.coefficients (domain.offset * domain.lde_gen ^ i)

/-- Claim C10: after a successful `add_trace_polys` the coefficient vector
has length exactly the trace length, and successful
`add_composition_poly` and `adjust_degree` leave the length unchanged; in
particular it never shrinks across the phases. -/
theorem C10_poly_size_invariant {R : Type} [CommRing R] [DecidableEq R]
    (conj : R → R) (g : R) (self selfb selfc : DeepCompositionPoly R)
    (polys cp : List (List R)) :
    ((add_trace_polys conj g self polys).isSome = true →
      (add_trace_polys conj g self polys).map
        (fun r => r.2.coefficients.length) = some (table_poly_size polys)) ∧
    ((add_composition_poly selfb cp).isSome = true →
      (add_composition_poly selfb cp).map
        (fun r => r.2.coefficients.length) =
        some selfb.coefficients.length) ∧
    ((adjust_degree selfc).isSome = true →
      (adjust_degree selfc).map (fun s => s.coefficients.length) =
        some selfc.coefficients.length) := by
  refine ⟨?_, ?_, ?_⟩
  · intro hs
    cases hr : add_trace_polys conj g self polys with
    | none => rw [hr] at hs; simp at hs
    | some r =>
      obtain ⟨-, -, -, -, -, hlen, -, -, -⟩ :=
        add_trace_polys_inv conj g self polys r hr
      simp only [Option.map_some', Option.some.injEq]
      exact hlen
  · intro hs
    cases hr : add_composition_poly selfb cp with
    | none => rw [hr] at hs; simp at hs
    | some r =>
      obtain ⟨-, -, -, -, hlen, -, -, -⟩ :=
        add_composition_poly_inv selfb cp r hr
      simp only [Option.map_some', Option.some.injEq]
      exact hlen
  · intro hs
    cases hr : adjust_degree selfc with
    | none => rw [hr] at hs; simp at hs
    | some s =>
      obtain ⟨-, -, -, hlen, -, -, -⟩ := adjust_degree_inv selfc s hr
      simp only [Option.map_some', Option.some.injEq]
      exact hlen

/-- Witness for C10 at the concrete three-phase run over `ZMod 17`: the
coefficient vector has length 4 (the trace length) after each phase. -/
theorem C10_witness :
    (add_trace_polys (fun a => a) 4 composer17 polys17).map
      (fun r => r.2.coefficients.length) = some (table_poly_size polys17) ∧
    (add_composition_poly composer17b [[0, 0, 0, 1]]).map
      (fun r => r.2.coefficients.length) =
      some composer17b.coefficients.length ∧
    (adjust_degree composer17c).map (fun s => s.coefficients.length) =
      some composer17c.coefficients.length :=
  ⟨(C10_poly_size_invariant (fun a => a) 4 composer17 composer17b composer17c
      polys17 [[0, 0, 0, 1]]).1 (by decide),
   (C10_poly_size_invariant (fun a => a) 4 composer17 composer17b composer17c
      polys17 [[0, 0, 0, 1]]).2.1 (by decide),
   (C10_poly_size_invariant (fun a => a) 4 composer17 composer17b composer17c
      polys17 [[0, 0, 0, 1]]).2.2 (by decide)⟩
